import Mathlib

/-!
Shallow embedding of the Lotofácil ABCD runner core, translated from
`src/abcd_runner.py` and `src/fechamento_simples_v11_54_abcd_gate_plus_FIXED19.py`:
the percentile utility, the ABCD game builders, the walk-forward gate
statistics and the campaign lifecycle (`update_campaigns` /
`maybe_start_campaign`).

Modelling conventions:
* Python floats carrying money are modelled as rationals (`ℚ`).
* Dates are modelled by their proleptic Gregorian ordinal (a `ℕ`), which
  matches Python `date` comparison and equality.
* Python dicts are modelled as association lists in insertion order;
  dict construction that overwrites duplicate keys is modelled by looking up
  the last matching entry.
* Python sets of drawn numbers are modelled as lists with set semantics
  (membership, deduplicated counting).
* `random.choices` (used only by the `AD` game of `abcd_runner.py`) is
  modelled by an arbitrary choice oracle `pick : ℕ → ℕ`; every theorem about
  it is proved for all oracles, which covers the seeded Mersenne Twister.
-/

namespace Abcd

/-- Python `sorted(l, key=key)`: a stable sort by a key function.  Implemented
with `List.insertionSort`, which is stable, like Python's sort. -/
def sortByKey {α K : Type} [LinearOrder K] (key : α → K) (l : List α) : List α :=
  @List.insertionSort α (fun a b => key a ≤ key b)
    (fun a b => inferInstanceAs (Decidable (key a ≤ key b))) l

theorem sortByKey_perm {α K : Type} [LinearOrder K] (key : α → K) (l : List α) :
    List.Perm (sortByKey key l) l :=
  List.perm_insertionSort _ l

theorem sortByKey_sorted {α K : Type} [LinearOrder K] (key : α → K) (l : List α) :
    (sortByKey key l).Sorted (fun a b => key a ≤ key b) := by
  haveI : IsTotal α (fun a b => key a ≤ key b) := ⟨fun a b => le_total _ _⟩
  haveI : IsTrans α (fun a b => key a ≤ key b) := ⟨fun _ _ _ h1 h2 => le_trans h1 h2⟩
  exact List.sorted_insertionSort _ l

theorem sortByKey_mem {α K : Type} [LinearOrder K] (key : α → K) (l : List α) (x : α) :
    x ∈ sortByKey key l ↔ x ∈ l :=
  (sortByKey_perm key l).mem_iff

theorem sortByKey_length {α K : Type} [LinearOrder K] (key : α → K) (l : List α) :
    (sortByKey key l).length = l.length :=
  (sortByKey_perm key l).length_eq

theorem sortByKey_nodup {α K : Type} [LinearOrder K] (key : α → K) {l : List α}
    (h : l.Nodup) : (sortByKey key l).Nodup :=
  ((sortByKey_perm key l).nodup_iff).mpr h

/-- `sorted(l)` on numbers: sort by the identity key. -/
def pySort {α : Type} [LinearOrder α] (l : List α) : List α := sortByKey id l

theorem pySort_sorted {α : Type} [LinearOrder α] (l : List α) :
    (pySort l).Sorted (· ≤ ·) := by
  have h := sortByKey_sorted (id : α → α) l
  simpa [pySort] using h

theorem pySort_perm {α : Type} [LinearOrder α] (l : List α) :
    List.Perm (pySort l) l :=
  sortByKey_perm id l

theorem pySort_mem {α : Type} [LinearOrder α] (l : List α) (x : α) :
    x ∈ pySort l ↔ x ∈ l := sortByKey_mem id l x

theorem pySort_length {α : Type} [LinearOrder α] (l : List α) :
    (pySort l).length = l.length := sortByKey_length id l

theorem pySort_nodup {α : Type} [LinearOrder α] {l : List α} (h : l.Nodup) :
    (pySort l).Nodup := sortByKey_nodup id h

/-- The interpolation rank `k = (len(xs) - 1) * (p / 100.0)` of `_percentile`. -/
def rankOf (n : ℕ) (p : ℚ) : ℚ := ((n - 1 : ℕ) : ℚ) * (p / 100)

/-- `f = int(k)` of `_percentile` (truncation equals floor since `k ≥ 0` there). -/
def floorIdx (n : ℕ) (p : ℚ) : ℕ := (Int.floor (rankOf n p)).toNat

/-- The body of `_percentile` after the boundary checks:
`c = min(f + 1, len(xs) - 1)`, returning `xs[f]` when `f == c`, else the linear
interpolation `xs[f]*(c-k) + xs[c]*(k-f)`. -/
def interpAt (xs : List ℚ) (p : ℚ) : ℚ :=
  let k := rankOf xs.length p
  let f := floorIdx xs.length p
  let c := min (f + 1) (xs.length - 1)
  if f = c then xs.getD f 0
  else xs.getD f 0 * ((c : ℚ) - k) + xs.getD c 0 * (k - (f : ℚ))

/-- `_percentile(values, p)` of `abcd_runner.py` (lines 385-403): simple
percentile with linear interpolation, `p` on the 0-100 scale.  The `_percentile`
of `fechamento_..._FIXED19.py` computes the same value: for the interior case
`0 < p < 100` the rank satisfies `k < n - 1`, so `ceil k` there coincides with
`min (floor k + 1) (n - 1)` here when `k` is not an integer, and both versions
return `xs[floor k]` when it is. -/
def pyPercentile (values : List ℚ) (p : ℚ) : ℚ :=
  if values = [] then 0
  else
    let xs := pySort values
    if p ≤ 0 then xs.getD 0 0
    else if 100 ≤ p then xs.getD (xs.length - 1) 0
    else interpAt xs p

theorem sorted_getD_mono {l : List ℚ} (h : l.Sorted (· ≤ ·)) {i j : ℕ}
    (hij : i ≤ j) (hj : j < l.length) : l.getD i 0 ≤ l.getD j 0 := by
  have hi : i < l.length := lt_of_le_of_lt hij hj
  rw [List.getD_eq_get _ _ hi, List.getD_eq_get _ _ hj]
  exact List.Sorted.rel_get_of_le h (show (⟨i, hi⟩ : Fin l.length) ≤ ⟨j, hj⟩ from hij)

theorem rankOf_nonneg (n : ℕ) {p : ℚ} (h0 : 0 ≤ p) : 0 ≤ rankOf n p := by
  unfold rankOf
  positivity

theorem rankOf_lt {n : ℕ} (h2 : 2 ≤ n) {p : ℚ} (h1 : p < 100) :
    rankOf n p < ((n - 1 : ℕ) : ℚ) := by
  unfold rankOf
  have hpos : (0 : ℚ) < ((n - 1 : ℕ) : ℚ) := by
    have : 1 ≤ n - 1 := by omega
    exact_mod_cast Nat.lt_of_lt_of_le Nat.zero_lt_one this
  have : p / 100 < 1 := by linarith
  calc ((n - 1 : ℕ) : ℚ) * (p / 100) < ((n - 1 : ℕ) : ℚ) * 1 := by
        exact mul_lt_mul_of_pos_left this hpos
    _ = ((n - 1 : ℕ) : ℚ) := mul_one _

theorem floorIdx_cast {n : ℕ} {p : ℚ} (h0 : 0 ≤ p) :
    ((floorIdx n p : ℕ) : ℚ) ≤ rankOf n p ∧ rankOf n p < ((floorIdx n p : ℕ) : ℚ) + 1 := by
  have hk : 0 ≤ rankOf n p := rankOf_nonneg n h0
  have hfl : 0 ≤ Int.floor (rankOf n p) := Int.floor_nonneg.mpr hk
  have hcast : ((floorIdx n p : ℕ) : ℚ) = ((Int.floor (rankOf n p) : ℤ) : ℚ) := by
    unfold floorIdx
    exact_mod_cast congrArg (fun z : ℤ => (z : ℚ)) (Int.toNat_of_nonneg hfl)
  constructor
  · rw [hcast]; exact Int.floor_le _
  · rw [hcast]; exact Int.lt_floor_add_one _

theorem floorIdx_lt {n : ℕ} (h2 : 2 ≤ n) {p : ℚ} (h0 : 0 ≤ p) (h1 : p < 100) :
    floorIdx n p < n - 1 := by
  have h := (@floorIdx_cast n p h0).1
  have hlt := @rankOf_lt n h2 p h1
  have : ((floorIdx n p : ℕ) : ℚ) < ((n - 1 : ℕ) : ℚ) := lt_of_le_of_lt h hlt
  exact_mod_cast this

theorem floorIdx_mono {n : ℕ} {p q : ℚ} (h0 : 0 ≤ p) (hpq : p ≤ q) :
    floorIdx n p ≤ floorIdx n q := by
  unfold floorIdx
  have : rankOf n p ≤ rankOf n q := by
    unfold rankOf
    have h100 : p / 100 ≤ q / 100 := by linarith
    exact mul_le_mul_of_nonneg_left h100 (by positivity)
  exact Int.toNat_le_toNat (Int.floor_le_floor this)

theorem interpAt_single {xs : List ℚ} (h : xs.length = 1) (p : ℚ) :
    interpAt xs p = xs.getD 0 0 := by
  have hr : rankOf xs.length p = 0 := by
    unfold rankOf; rw [h]; norm_num
  have hf : floorIdx xs.length p = 0 := by
    unfold floorIdx; rw [hr]; rfl
  unfold interpAt
  rw [hr, hf, h]
  norm_num

theorem interpAt_interior {xs : List ℚ} {p : ℚ} (h2 : 2 ≤ xs.length)
    (h0 : 0 ≤ p) (h1 : p < 100) :
    interpAt xs p =
      xs.getD (floorIdx xs.length p) 0 *
          (((floorIdx xs.length p : ℕ) : ℚ) + 1 - rankOf xs.length p) +
        xs.getD (floorIdx xs.length p + 1) 0 *
          (rankOf xs.length p - ((floorIdx xs.length p : ℕ) : ℚ)) := by
  have hflt : floorIdx xs.length p < xs.length - 1 := floorIdx_lt h2 h0 h1
  have hmin : min (floorIdx xs.length p + 1) (xs.length - 1) = floorIdx xs.length p + 1 :=
    min_eq_left (by omega)
  have hne : floorIdx xs.length p ≠ min (floorIdx xs.length p + 1) (xs.length - 1) := by
    rw [hmin]; omega
  unfold interpAt
  rw [if_neg hne, hmin]
  push_cast
  ring

theorem interpAt_bounds {xs : List ℚ} (hs : xs.Sorted (· ≤ ·)) {p : ℚ}
    (h2 : 2 ≤ xs.length) (h0 : 0 ≤ p) (h1 : p < 100) :
    xs.getD (floorIdx xs.length p) 0 ≤ interpAt xs p ∧
      interpAt xs p ≤ xs.getD (floorIdx xs.length p + 1) 0 := by
  have hflt : floorIdx xs.length p < xs.length - 1 := floorIdx_lt h2 h0 h1
  have hcast := @floorIdx_cast xs.length p h0
  have hle : xs.getD (floorIdx xs.length p) 0 ≤ xs.getD (floorIdx xs.length p + 1) 0 :=
    sorted_getD_mono hs (Nat.le_succ _) (by omega)
  rw [interpAt_interior h2 h0 h1]
  constructor
  · nlinarith [hcast.1, hcast.2]
  · nlinarith [hcast.1, hcast.2]

theorem interpAt_mono {xs : List ℚ} (hs : xs.Sorted (· ≤ ·)) (hne : xs ≠ [])
    {p q : ℚ} (h0p : 0 ≤ p) (h1q : q < 100) (hpq : p ≤ q) :
    interpAt xs p ≤ interpAt xs q := by
  have h1p : p < 100 := lt_of_le_of_lt hpq h1q
  have h0q : 0 ≤ q := le_trans h0p hpq
  have hlen1 : 1 ≤ xs.length := List.length_pos.mpr hne
  rcases Nat.lt_or_ge xs.length 2 with hn1 | hn2
  · have h1 : xs.length = 1 := by omega
    rw [interpAt_single h1, interpAt_single h1]
  · have hfp := floorIdx_lt hn2 h0p h1p
    have hfq := floorIdx_lt hn2 h0q h1q
    have hcp := @floorIdx_cast xs.length p h0p
    have hcq := @floorIdx_cast xs.length q h0q
    have hrank : rankOf xs.length p ≤ rankOf xs.length q := by
      unfold rankOf
      have : p / 100 ≤ q / 100 := by linarith
      exact mul_le_mul_of_nonneg_left this (by positivity)
    rcases Nat.lt_or_ge (floorIdx xs.length p) (floorIdx xs.length q) with hflt | hfge
    · -- strictly smaller floor index: chain through the grid points
      have hub := (interpAt_bounds hs hn2 h0p h1p).2
      have hlb := (interpAt_bounds hs hn2 h0q h1q).1
      have hmid : xs.getD (floorIdx xs.length p + 1) 0 ≤
          xs.getD (floorIdx xs.length q) 0 :=
        sorted_getD_mono hs (by omega) (by omega)
      linarith
    · -- same floor index (floorIdx is monotone, so ≥ forces equality)
      have heq : floorIdx xs.length p = floorIdx xs.length q :=
        le_antisymm (floorIdx_mono h0p hpq) hfge
      have hle : xs.getD (floorIdx xs.length p) 0 ≤ xs.getD (floorIdx xs.length p + 1) 0 :=
        sorted_getD_mono hs (Nat.le_succ _) (by omega)
      rw [interpAt_interior hn2 h0p h1p, interpAt_interior hn2 h0q h1q, ← heq]
      nlinarith [hrank]

theorem pyPercentile_eval {values : List ℚ} (hne : values ≠ []) (p : ℚ) :
    pyPercentile values p =
      if p ≤ 0 then (pySort values).getD 0 0
      else if 100 ≤ p then (pySort values).getD ((pySort values).length - 1) 0
      else interpAt (pySort values) p := by
  simp only [pyPercentile, if_neg hne]

theorem pyPercentile_ge_head {values : List ℚ} (hne : values ≠ []) (p : ℚ) :
    (pySort values).getD 0 0 ≤ pyPercentile values p := by
  have hs := pySort_sorted values
  have hlen : 1 ≤ (pySort values).length := by
    rw [pySort_length]
    exact List.length_pos.mpr hne
  rw [pyPercentile_eval hne]
  split_ifs with h1 h2
  · exact le_refl _
  · exact sorted_getD_mono hs (Nat.zero_le _) (by omega)
  · push_neg at h1 h2
    rcases Nat.lt_or_ge (pySort values).length 2 with hn1 | hn2
    · rw [interpAt_single (by omega) p]
    · have hb := (interpAt_bounds hs hn2 (le_of_lt h1) h2).1
      have hfl := floorIdx_lt hn2 (le_of_lt h1) h2
      exact le_trans (sorted_getD_mono hs (Nat.zero_le _) (by omega)) hb

theorem pyPercentile_le_last {values : List ℚ} (hne : values ≠ []) (p : ℚ) :
    pyPercentile values p ≤ (pySort values).getD ((pySort values).length - 1) 0 := by
  have hs := pySort_sorted values
  have hlen : 1 ≤ (pySort values).length := by
    rw [pySort_length]
    exact List.length_pos.mpr hne
  rw [pyPercentile_eval hne]
  split_ifs with h1 h2
  · exact sorted_getD_mono hs (Nat.zero_le _) (by omega)
  · exact le_refl _
  · push_neg at h1 h2
    rcases Nat.lt_or_ge (pySort values).length 2 with hn1 | hn2
    · rw [interpAt_single (by omega) p]
      exact sorted_getD_mono hs (Nat.zero_le _) (by omega)
    · have hb := (interpAt_bounds hs hn2 (le_of_lt h1) h2).2
      have hfl := floorIdx_lt hn2 (le_of_lt h1) h2
      exact le_trans hb (sorted_getD_mono hs (by omega) (by omega))

/-- C9: for a non-empty list, `_percentile` realizes the linear-interpolation
percentile and satisfies: `percentile(xs, 0)` is the minimum of `xs`,
`percentile(xs, 100)` is the maximum of `xs`, and the value is monotone in `p`
(for all `p₁ ≤ p₂`, including the clamped regions outside `[0, 100]`). -/
theorem percentile_min_max_mono (values : List ℚ) (hne : values ≠ []) :
    (pyPercentile values 0 ∈ values ∧ ∀ y ∈ values, pyPercentile values 0 ≤ y) ∧
      (pyPercentile values 100 ∈ values ∧ ∀ y ∈ values, y ≤ pyPercentile values 100) ∧
      (∀ p q : ℚ, p ≤ q → pyPercentile values p ≤ pyPercentile values q) := by
  have hs := pySort_sorted values
  have hlen : 1 ≤ (pySort values).length := by
    rw [pySort_length]
    exact List.length_pos.mpr hne
  have hmem : ∀ i, i < (pySort values).length → (pySort values).getD i 0 ∈ values := by
    intro i hi
    rw [List.getD_eq_getElem _ _ hi]
    exact (pySort_mem values _).mp (List.getElem_mem hi)
  have hidx : ∀ y ∈ values, ∃ i, ∃ hi : i < (pySort values).length,
      (pySort values).getD i 0 = y := by
    intro y hy
    obtain ⟨i, hi, hget⟩ := List.mem_iff_getElem.mp ((pySort_mem values y).mpr hy)
    exact ⟨i, hi, by rw [List.getD_eq_getElem _ _ hi]; exact hget⟩
  have h0eval : pyPercentile values 0 = (pySort values).getD 0 0 := by
    rw [pyPercentile_eval hne]; norm_num
  have h100eval : pyPercentile values 100 =
      (pySort values).getD ((pySort values).length - 1) 0 := by
    rw [pyPercentile_eval hne]; norm_num
  refine ⟨⟨?_, ?_⟩, ⟨?_, ?_⟩, ?_⟩
  · rw [h0eval]; exact hmem 0 (by omega)
  · intro y hy
    obtain ⟨i, hi, hget⟩ := hidx y hy
    rw [h0eval, ← hget]
    exact sorted_getD_mono hs (Nat.zero_le _) hi
  · rw [h100eval]; exact hmem _ (by omega)
  · intro y hy
    obtain ⟨i, hi, hget⟩ := hidx y hy
    rw [h100eval, ← hget]
    exact sorted_getD_mono hs (by omega) (by omega)
  · intro p q hpq
    rcases le_or_lt p 0 with hp0 | hp0
    · have : pyPercentile values p = (pySort values).getD 0 0 := by
        rw [pyPercentile_eval hne, if_pos hp0]
      rw [this]
      exact pyPercentile_ge_head hne q
    · rcases le_or_lt 100 q with hq100 | hq100
      · have : pyPercentile values q =
            (pySort values).getD ((pySort values).length - 1) 0 := by
          rw [pyPercentile_eval hne, if_neg (by linarith), if_pos hq100]
        rw [this]
        exact pyPercentile_le_last hne p
      · have hevp : pyPercentile values p = interpAt (pySort values) p := by
          rw [pyPercentile_eval hne, if_neg (by linarith), if_neg (by linarith)]
        have hevq : pyPercentile values q = interpAt (pySort values) q := by
          rw [pyPercentile_eval hne, if_neg (by linarith), if_neg (by linarith)]
        rw [hevp, hevq]
        exact interpAt_mono hs (by rw [← List.length_pos, pySort_length] at *; omega)
          (le_of_lt hp0) hq100 hpq

/-- Concrete instantiation of `percentile_min_max_mono` at `[3, 1, 2]`. -/
theorem percentile_min_max_mono_witness :
    (pyPercentile [3, 1, 2] 0 ∈ [(3 : ℚ), 1, 2] ∧
        ∀ y ∈ [(3 : ℚ), 1, 2], pyPercentile [3, 1, 2] 0 ≤ y) ∧
      (pyPercentile [3, 1, 2] 100 ∈ [(3 : ℚ), 1, 2] ∧
        ∀ y ∈ [(3 : ℚ), 1, 2], y ≤ pyPercentile [3, 1, 2] 100) ∧
      (∀ p q : ℚ, p ≤ q → pyPercentile [3, 1, 2] p ≤ pyPercentile [3, 1, 2] q) :=
  percentile_min_max_mono [3, 1, 2] (by decide)

/-! ## Data model

One structure models the `Draw` dataclasses of both scripts (`abcd_runner.py`
uses fields `concurso`, `data`, `dezenas`, `rateios`; the big script uses
`concurso`, `data`, `bolas`, `premios`).  Numbers drawn are kept as a list
with set semantics; the payout table is an association list `hits ↦ value`. -/

structure Draw where
  concurso : ℕ
  data : ℕ
  bolas : List ℕ
  premios : List (ℕ × ℚ)
deriving Repr, DecidableEq

/-- Python `d.get(k, default)` on an int-keyed dict. -/
def dictGet (l : List (ℕ × ℚ)) (k : ℕ) (d : ℚ) : ℚ := (l.lookup k).getD d

/-- `payout_for_hits` of `abcd_runner.py` (line 259):
`float(draw.rateios.get(hits, 0.0))`. -/
def payout_for_hits (d : Draw) (hits : ℕ) : ℚ := dictGet d.premios hits 0

/-- `infer_aposta15_custo` of `abcd_runner.py` (line 262): the 11-hit prize is
twice the bet price; otherwise the given fallback. -/
def infer_aposta15_custo (d : Draw) (fallback : ℚ) : ℚ :=
  let v11 := dictGet d.premios 11 0
  if 0 < v11 then v11 / 2 else fallback

/-- Python `l[-window:] if len(l) > window else l[:]` (as used with
`window ≥ 1` throughout the scripts). -/
def takeLastN {α : Type} (window : ℕ) (l : List α) : List α :=
  if window < l.length then l.drop (l.length - window) else l

/-- Occurrences of dezena `n` across a history (the loop that fills the
`freq` dict). -/
def count_dezena (hist : List Draw) (n : ℕ) : ℕ :=
  (hist.map (fun d => d.bolas.count n)).sum

/-- `_freq_rank` of `abcd_runner.py` (lines 275-282): most frequent first,
ties broken by the smaller number.  The Python sort key is the pair
`(-count, n)`; since `1 ≤ n ≤ 25 < 26` it is encoded here as the single
integer `26 * (-count) + n`, which has the same lexicographic order. -/
def _freq_rank (draws : List Draw) (window : ℕ) : List ℕ :=
  let hist := takeLastN window draws
  (sortByKey (fun nv : ℕ × ℕ => (26 : ℤ) * (-(nv.2 : ℤ)) + (nv.1 : ℤ))
    ((List.range' 1 25).map (fun n => (n, count_dezena hist n)))).map Prod.fst

/-- `_delay_rank` of `abcd_runner.py` (lines 284-294): `delay n` is
`10_000` when `n` never occurs in the window, else the distance from the end
of the window to its last occurrence (= the index of its first occurrence in
the reversed window).  Sort key `(-delay, n)` encoded as `26*(-delay) + n`. -/
def _delay_rank (draws : List Draw) (window : ℕ) : List ℕ :=
  let hist := takeLastN window draws
  let delay : ℕ → ℤ := fun n =>
    match hist.reverse.findIdx? (fun d => n ∈ d.bolas) with
    | some k => (k : ℤ)
    | none => 10000
  sortByKey (fun n : ℕ => (26 : ℤ) * (-(delay n)) + (n : ℤ)) (List.range' 1 25)

/-- Loop body of `_pick_unique` of `abcd_runner.py` (lines 296-305): walk
`base`, skip excluded numbers, append fresh ones to both the output and the
exclude set, stop as soon as the output has reached `k` entries. -/
def pickUniqueGo (k : ℕ) : List ℕ → List ℕ → List ℕ → List ℕ × List ℕ
  | [], ex, out => (out, ex)
  | n :: rest, ex, out =>
      if n ∈ ex then pickUniqueGo k rest ex out
      else
        let out' := out ++ [n]
        let ex' := ex ++ [n]
        if k ≤ out'.length then (out', ex') else pickUniqueGo k rest ex' out'

/-- `_pick_unique(base, k, exclude)`; the Python function mutates `exclude`,
so the updated exclude set is returned alongside the picked list. -/
def _pick_unique (base : List ℕ) (k : ℕ) (ex : List ℕ) : List ℕ × List ℕ :=
  pickUniqueGo k base ex []

/-- One step of the `mixed` interleaving of `build_abcd_games`: append `a`
then `b` when not seen yet. -/
def mixedStep (acc : List ℕ) (ab : ℕ × ℕ) : List ℕ :=
  let acc1 := if ab.1 ∈ acc then acc else acc ++ [ab.1]
  if ab.2 ∈ acc1 then acc1 else acc1 ++ [ab.2]

/-- The `mixed` list of `build_abcd_games` (lines 323-332): interleave `freq`
and `delay` skipping numbers already seen, then append every number of
`1..25` still missing. -/
def mixedRank (freq delay : List ℕ) : List ℕ :=
  let m0 := (freq.zip delay).foldl mixedStep []
  m0 ++ (List.range' 1 25).filter (fun n => n ∉ m0)

/-- The weighted random picking loop of `mk_AD` (lines 349-357):
`random.choices` is modelled by the oracle `pick`, reduced mod the current
pool size; each round removes the chosen element from the pool and appends it
to `chosen`, until `k` numbers are chosen or the pool is exhausted.  All
theorems below hold for every oracle, hence for the seeded Mersenne Twister. -/
def drawK (pick : ℕ → ℕ) : ℕ → ℕ → List ℕ → List ℕ
  | 0, _, _ => []
  | k + 1, step, pool =>
      if pool = [] then []
      else
        let i := pick step % pool.length
        pool.getD i 0 :: drawK pick k (step + 1) (pool.eraseIdx i)

/-- The four games returned by `build_abcd_games` /
`_build_abcd_games_from_history` (dict in insertion order
AB, AC, AD, BCD resp. jogo_A_B, jogo_A_C, jogo_A_D, jogo_B_C_D). -/
structure AbcdGames where
  AB : List ℕ
  AC : List ℕ
  AD : List ℕ
  BCD : List ℕ
deriving Repr, DecidableEq

/-- `mk_AB` (lines 334-338): 8 from `freq`, then 7 from `delay` excluding
the first 8, sorted. -/
def mk_AB (freq delay : List ℕ) : List ℕ :=
  let a := _pick_unique freq 8 []
  let b := _pick_unique delay 7 a.2
  pySort (a.1 ++ b.1)

/-- `mk_AC` (lines 340-344). -/
def mk_AC (freq mixed : List ℕ) : List ℕ :=
  let a := _pick_unique freq 8 []
  let c := _pick_unique mixed 7 a.2
  pySort (a.1 ++ c.1)

/-- `mk_AD` (lines 346-358): 8 from `freq`, then 7 weighted-random picks from
the remaining `mixed` pool, `sorted(a + sorted(chosen))`. -/
def mk_AD (pick : ℕ → ℕ) (freq mixed : List ℕ) : List ℕ :=
  let a := _pick_unique freq 8 []
  let pool := mixed.filter (fun n => n ∉ a.2)
  let chosen := drawK pick 7 0 pool
  pySort (a.1 ++ pySort chosen)

/-- `mk_BCD` (lines 360-365): 5 from `delay`, 5 from `mixed`, 5 from `freq`,
sharing one exclude set, sorted. -/
def mk_BCD (freq delay mixed : List ℕ) : List ℕ :=
  let b := _pick_unique delay 5 []
  let c := _pick_unique mixed 5 b.2
  let d := _pick_unique freq 5 c.2
  pySort (b.1 ++ c.1 ++ d.1)

/-- `build_abcd_games(draws)` of `abcd_runner.py` (lines 307-372).  The call
`random.seed(RNG_SEED + last concurso)` only fixes the RNG stream, which is
modelled by the oracle `pick`. -/
def build_abcd_games (pick : ℕ → ℕ) (draws : List Draw) : AbcdGames :=
  let freq := _freq_rank draws 200
  let delay := _delay_rank draws 200
  let mixed := mixedRank freq delay
  ⟨mk_AB freq delay, mk_AC freq mixed, mk_AD pick freq mixed, mk_BCD freq delay mixed⟩

/-! ## The gate computation of `abcd_runner.py` (lines 406-488)

Modelled in `Except`: the walk-forward loop body executes
`build_abcd_games(history, janela_recente=janela_recente)`, but
`build_abcd_games` (line 307) takes only `draws` — in Python this raises
`TypeError` on the first loop iteration.  The loop `for i in
range(1, last_start)` with `last_start = len(draws) - (teimosinha_n - 1)` is
non-empty iff `len(draws) - teimosinha_n > 0`. -/

structure RunnerGate where
  pass : Bool
  reason : Option String
  gaps : List ℤ
  gap_atual : Option ℤ
  lo : ℚ
  hi : ℚ
deriving Repr, DecidableEq

def compute_abcd_gate_stats_runner (draws : List Draw) (teimosinha_n min_hits : ℕ)
    (gate_percentis : ℚ × ℚ) : Except String RunnerGate :=
  if draws.length < 10 then
    .ok ⟨false, some "Poucos concursos", [], none, 0, 0⟩
  else if ((draws.length : ℤ) - (teimosinha_n : ℤ)) ≤ 0 then
    -- walk-forward loop empty: no success is recorded, `gaps` stays empty
    .ok ⟨false, some "Sem sucessos suficientes", [], none, 0, 0⟩
  else
    .error "TypeError: build_abcd_games() got an unexpected keyword argument"

/-- Ten draws with valid dezenas, enough to pass the `len(draws) < 10` guard. -/
def sampleDraws10 : List Draw :=
  (List.range' 1 10).map (fun i => ⟨i, i, [1, 2, 3], []⟩)

/-- C3: the gate computation of `abcd_runner.py` is not total.  On any input
reaching the walk-forward loop (at least 10 draws and
`len(draws) > teimosinha_n`) it raises `TypeError`, because it calls
`build_abcd_games(history, janela_recente=...)` while `build_abcd_games`
accepts no such keyword argument.  This contradicts the documented failure
semantics (every failure path returns a `pass = false` decision). -/
theorem gate_stats_runner_raises :
    sampleDraws10.length = 10 ∧
      compute_abcd_gate_stats_runner sampleDraws10 1 11 (25, 75) =
        .error "TypeError: build_abcd_games() got an unexpected keyword argument" := by
  constructor
  · rfl
  · rfl

/-! ## Shape lemmas for the game builders -/

theorem nodup_subset_length_le {l m : List ℕ} (h : l.Nodup) (hsub : ∀ x ∈ l, x ∈ m) :
    l.length ≤ m.length := by
  calc l.length = l.toFinset.card := (List.toFinset_card_of_nodup h).symm
    _ ≤ m.toFinset.card := by
        refine Finset.card_le_card ?_
        intro x hx
        rw [List.mem_toFinset] at hx ⊢
        exact hsub x hx
    _ ≤ m.length := m.toFinset_card_le

theorem filter_not_mem_length {base ex : List ℕ} (h : base.Nodup) :
    base.length - ex.length ≤ (base.filter (fun n => n ∉ ex)).length := by
  classical
  have hsum : (base.filter (fun n => n ∈ ex)).length +
      (base.filter (fun n => n ∉ ex)).length = base.length := by
    have h1 := List.length_eq_countP_add_countP (fun n => decide (n ∈ ex)) base
    simp only [List.countP_eq_length_filter] at h1
    have h2 : base.filter (fun a => decide (¬decide (a ∈ ex) = true)) =
        base.filter (fun n => n ∉ ex) := by
      refine List.filter_congr ?_
      intro x _
      by_cases hx : x ∈ ex <;> simp [hx]
    rw [h2] at h1
    omega
  have hle : (base.filter (fun n => n ∈ ex)).length ≤ ex.length := by
    refine nodup_subset_length_le (h.filter _) ?_
    intro x hx
    have := List.of_mem_filter hx
    simpa using this
  omega

theorem pickUniqueGo_spec (k : ℕ) (base : List ℕ) : ∀ ex out : List ℕ,
    ∃ delta : List ℕ,
      (pickUniqueGo k base ex out).1 = out ++ delta ∧
        (pickUniqueGo k base ex out).2 = ex ++ delta ∧
        delta.Nodup ∧ ∀ x ∈ delta, x ∈ base ∧ x ∉ ex := by
  induction base with
  | nil =>
    intro ex out
    exact ⟨[], by simp [pickUniqueGo], by simp [pickUniqueGo], List.nodup_nil, by simp⟩
  | cons n rest ih =>
    intro ex out
    by_cases hmem : n ∈ ex
    · obtain ⟨delta, h1, h2, h3, h4⟩ := ih ex out
      refine ⟨delta, ?_, ?_, h3, ?_⟩
      · simpa [pickUniqueGo, hmem] using h1
      · simpa [pickUniqueGo, hmem] using h2
      · intro x hx
        exact ⟨List.mem_cons_of_mem n (h4 x hx).1, (h4 x hx).2⟩
    · by_cases hk : k ≤ out.length + 1
      · refine ⟨[n], ?_, ?_, List.nodup_singleton n, ?_⟩
        · simp [pickUniqueGo, hmem, hk]
        · simp [pickUniqueGo, hmem, hk]
        · intro x hx
          rw [List.mem_singleton] at hx
          refine ⟨?_, ?_⟩
          · rw [hx]; exact List.mem_cons_self n rest
          · rw [hx]; exact hmem
      · obtain ⟨delta, h1, h2, h3, h4⟩ := ih (ex ++ [n]) (out ++ [n])
        refine ⟨n :: delta, ?_, ?_, ?_, ?_⟩
        · have : pickUniqueGo k (n :: rest) ex out =
              pickUniqueGo k rest (ex ++ [n]) (out ++ [n]) := by
            simp [pickUniqueGo, hmem, hk]
          rw [this, h1, List.append_assoc]
          rfl
        · have : pickUniqueGo k (n :: rest) ex out =
              pickUniqueGo k rest (ex ++ [n]) (out ++ [n]) := by
            simp [pickUniqueGo, hmem, hk]
          rw [this, h2, List.append_assoc]
          rfl
        · refine List.nodup_cons.mpr ⟨?_, h3⟩
          intro hn
          have := (h4 n hn).2
          simp at this
        · intro x hx
          rcases List.mem_cons.mp hx with rfl | hx
          · exact ⟨List.mem_cons_self x rest, hmem⟩
          · refine ⟨List.mem_cons_of_mem n (h4 x hx).1, ?_⟩
            intro hxe
            exact (h4 x hx).2 (List.mem_append_left _ hxe)

theorem pickUniqueGo_length (k : ℕ) (base : List ℕ) : ∀ ex out : List ℕ,
    base.Nodup → out.length < k →
    (pickUniqueGo k base ex out).1.length =
      min k (out.length + (base.filter (fun n => n ∉ ex)).length) := by
  induction base with
  | nil =>
    intro ex out _ hout
    simp only [pickUniqueGo, List.filter_nil, List.length_nil]
    omega
  | cons n rest ih =>
    intro ex out hnd hout
    obtain ⟨hn, hrest⟩ := List.nodup_cons.mp hnd
    by_cases hmem : n ∈ ex
    · have heq : pickUniqueGo k (n :: rest) ex out = pickUniqueGo k rest ex out := by
        simp [pickUniqueGo, hmem]
      have hf : (n :: rest).filter (fun m => m ∉ ex) = rest.filter (fun m => m ∉ ex) := by
        rw [List.filter_cons_of_neg]
        simp [hmem]
      rw [heq, hf]
      exact ih ex out hrest hout
    · have hf : (n :: rest).filter (fun m => m ∉ ex) =
          n :: rest.filter (fun m => m ∉ ex) := by
        rw [List.filter_cons_of_pos]
        simp [hmem]
      by_cases hk : k ≤ out.length + 1
      · have heq : pickUniqueGo k (n :: rest) ex out = (out ++ [n], ex ++ [n]) := by
          simp [pickUniqueGo, hmem, hk]
        rw [heq, hf]
        simp only [List.length_append, List.length_singleton, List.length_cons,
          List.length_nil]
        rw [min_eq_left
          (by omega : k ≤ out.length + ((rest.filter (fun m => m ∉ ex)).length + 1))]
        omega
      · have heq : pickUniqueGo k (n :: rest) ex out =
            pickUniqueGo k rest (ex ++ [n]) (out ++ [n]) := by
          simp [pickUniqueGo, hmem, hk]
        have hout' : (out ++ [n]).length < k := by
          simp only [List.length_append, List.length_singleton]
          omega
        have hrw : rest.filter (fun m => m ∉ ex ++ [n]) =
            rest.filter (fun m => m ∉ ex) := by
          refine List.filter_congr ?_
          intro x hx
          have hxn : x ≠ n := fun h => hn (h ▸ hx)
          simp [List.mem_append, hxn]
        rw [heq, ih (ex ++ [n]) (out ++ [n]) hrest hout', hrw, hf]
        have hlen1 : (out ++ [n]).length = out.length + 1 := by simp
        rw [hlen1]
        simp only [List.length_cons]
        congr 1
        omega

theorem pick_unique_spec (base : List ℕ) (k : ℕ) (ex : List ℕ) :
    (_pick_unique base k ex).2 = ex ++ (_pick_unique base k ex).1 ∧
      (_pick_unique base k ex).1.Nodup ∧
      ∀ x ∈ (_pick_unique base k ex).1, x ∈ base ∧ x ∉ ex := by
  obtain ⟨delta, h1, h2, h3, h4⟩ := pickUniqueGo_spec k base ex []
  have h1' : (_pick_unique base k ex).1 = delta := by
    unfold _pick_unique
    simpa using h1
  have h2' : (_pick_unique base k ex).2 = ex ++ delta := by
    unfold _pick_unique
    exact h2
  refine ⟨?_, ?_, ?_⟩
  · rw [h2', h1']
  · rw [h1']; exact h3
  · rw [h1']; exact h4

theorem pick_unique_length {base : List ℕ} (k : ℕ) (ex : List ℕ)
    (hnd : base.Nodup) (hk : 1 ≤ k)
    (hava : k + ex.length ≤ base.length) :
    (_pick_unique base k ex).1.length = k := by
  unfold _pick_unique
  rw [pickUniqueGo_length k base ex [] hnd (by simpa using hk)]
  have := @filter_not_mem_length base ex hnd
  simp only [List.length_nil, Nat.zero_add]
  omega

theorem getD_not_mem_eraseIdx : ∀ (l : List ℕ) (i : ℕ), l.Nodup → i < l.length →
    l.getD i 0 ∉ l.eraseIdx i := by
  intro l
  induction l with
  | nil => intro i _ hi; simp at hi
  | cons a t ih =>
    intro i hnd hi
    obtain ⟨ha, ht⟩ := List.nodup_cons.mp hnd
    cases i with
    | zero => simpa using ha
    | succ j =>
      simp only [List.getD_cons_succ, List.eraseIdx_cons_succ, List.mem_cons]
      push_neg
      constructor
      · intro heq
        have : t.getD j 0 ∈ t := by
          rw [List.getD_eq_getElem _ _ (by simpa using hi)]
          exact List.getElem_mem _
        exact ha (heq ▸ this)
      · exact ih j ht (by simpa using hi)

theorem drawK_subset (pick : ℕ → ℕ) : ∀ (k step : ℕ) (pool : List ℕ),
    ∀ x ∈ drawK pick k step pool, x ∈ pool := by
  intro k
  induction k with
  | zero => intro step pool x hx; simp [drawK] at hx
  | succ k ih =>
    intro step pool x hx
    by_cases hp : pool = []
    · simp [drawK, hp] at hx
    · rw [drawK, if_neg hp] at hx
      rcases List.mem_cons.mp hx with rfl | hx
      · rw [List.getD_eq_getElem _ _ (Nat.mod_lt _ (List.length_pos.mpr hp))]
        exact List.getElem_mem _
      · exact (List.eraseIdx_sublist pool _).subset (ih _ _ x hx)

theorem drawK_length (pick : ℕ → ℕ) : ∀ (k step : ℕ) (pool : List ℕ),
    (drawK pick k step pool).length = min k pool.length := by
  intro k
  induction k with
  | zero => intro step pool; simp [drawK]
  | succ k ih =>
    intro step pool
    by_cases hp : pool = []
    · simp [drawK, hp]
    · have hpos : 0 < pool.length := List.length_pos.mpr hp
      have hi : pick step % pool.length < pool.length := Nat.mod_lt _ hpos
      rw [drawK, if_neg hp]
      simp only [List.length_cons, ih]
      have := List.length_eraseIdx_add_one hi
      omega

theorem drawK_nodup (pick : ℕ → ℕ) : ∀ (k step : ℕ) (pool : List ℕ),
    pool.Nodup → (drawK pick k step pool).Nodup := by
  intro k
  induction k with
  | zero => intro step pool _; simp [drawK]
  | succ k ih =>
    intro step pool hnd
    by_cases hp : pool = []
    · simp [drawK, hp]
    · have hpos : 0 < pool.length := List.length_pos.mpr hp
      have hi : pick step % pool.length < pool.length := Nat.mod_lt _ hpos
      rw [drawK, if_neg hp]
      refine List.nodup_cons.mpr ⟨?_, ih _ _ ((List.eraseIdx_sublist pool _).nodup hnd)⟩
      intro hmem
      exact getD_not_mem_eraseIdx pool _ hnd hi
        (drawK_subset pick k (step + 1) _ _ hmem)

/-! ## The ranked lists are permutations of `1..25` -/

theorem _freq_rank_perm (draws : List Draw) (window : ℕ) :
    List.Perm (_freq_rank draws window) (List.range' 1 25) := by
  unfold _freq_rank
  have h1 := (sortByKey_perm (fun nv : ℕ × ℕ => (26 : ℤ) * (-(nv.2 : ℤ)) + (nv.1 : ℤ))
    ((List.range' 1 25).map (fun n => (n, count_dezena (takeLastN window draws) n)))).map
    Prod.fst
  have h2 : ((List.range' 1 25).map
      (fun n => (n, count_dezena (takeLastN window draws) n))).map Prod.fst =
      List.range' 1 25 := by
    rw [List.map_map]
    have hcomp : (Prod.fst ∘ fun n : ℕ => (n, count_dezena (takeLastN window draws) n)) =
        id := rfl
    rw [hcomp, List.map_id]
  rw [h2] at h1
  exact h1

theorem _delay_rank_perm (draws : List Draw) (window : ℕ) :
    List.Perm (_delay_rank draws window) (List.range' 1 25) := by
  unfold _delay_rank
  exact sortByKey_perm _ _

theorem mixed_fold_inv : ∀ (l : List (ℕ × ℕ)) (acc : List ℕ),
    acc.Nodup → (∀ x ∈ acc, x ∈ List.range' 1 25) →
    (∀ ab ∈ l, ab.1 ∈ List.range' 1 25 ∧ ab.2 ∈ List.range' 1 25) →
    (l.foldl mixedStep acc).Nodup ∧
      ∀ x ∈ l.foldl mixedStep acc, x ∈ List.range' 1 25 := by
  intro l
  induction l with
  | nil => intro acc h1 h2 _; exact ⟨h1, h2⟩
  | cons ab rest ih =>
    intro acc h1 h2 hl
    have hab := hl ab (List.mem_cons_self ab rest)
    have hstep : (mixedStep acc ab).Nodup ∧
        ∀ x ∈ mixedStep acc ab, x ∈ List.range' 1 25 := by
      unfold mixedStep
      by_cases ha : ab.1 ∈ acc <;> by_cases hb : ab.2 ∈ acc ++ [ab.1] <;>
        by_cases hb' : ab.2 ∈ acc
      all_goals
        simp only [ha, hb, hb', if_pos, if_neg, ite_true, ite_false, not_false_iff]
      all_goals
        constructor
      all_goals
        first
        | exact h1
        | (intro x hx; exact h2 x hx)
        | (refine (List.nodup_append_comm.mp ?_)
           <;> simp_all [List.nodup_cons, List.nodup_append])
        | (intro x hx
           rcases List.mem_append.mp hx with hx | hx
           · first
             | exact h2 x hx
             | (rcases List.mem_append.mp hx with hy | hy
                · exact h2 x hy
                · rw [List.mem_singleton] at hy; rw [hy]; exact hab.1)
           · rw [List.mem_singleton] at hx
             rw [hx]
             first
             | exact hab.1
             | exact hab.2)
        | skip
      all_goals simp_all [List.nodup_append]
    exact ih (mixedStep acc ab) hstep.1 hstep.2
      (fun p hp => hl p (List.mem_cons_of_mem ab hp))

theorem mixedRank_perm {freq delay : List ℕ}
    (hf : ∀ x ∈ freq, x ∈ List.range' 1 25) (hd : ∀ x ∈ delay, x ∈ List.range' 1 25) :
    List.Perm (mixedRank freq delay) (List.range' 1 25) := by
  unfold mixedRank
  have hzip : ∀ ab ∈ freq.zip delay,
      ab.1 ∈ List.range' 1 25 ∧ ab.2 ∈ List.range' 1 25 := by
    intro ab hab
    obtain ⟨h1, h2⟩ := List.mem_zip hab
    exact ⟨hf _ h1, hd _ h2⟩
  obtain ⟨hm0nd, hm0sub⟩ := mixed_fold_inv (freq.zip delay) [] List.nodup_nil
    (by simp) hzip
  set m0 := (freq.zip delay).foldl mixedStep [] with hm0
  have hnd : (m0 ++ (List.range' 1 25).filter (fun n => n ∉ m0)).Nodup := by
    rw [List.nodup_append]
    refine ⟨hm0nd, (List.nodup_range' _ _).filter _, ?_⟩
    intro x hx hx'
    have := List.of_mem_filter hx'
    simp only [decide_not, Bool.not_eq_true', decide_eq_false_iff_not] at this
    exact this hx
  have hmem : ∀ x, x ∈ m0 ++ (List.range' 1 25).filter (fun n => n ∉ m0) ↔
      x ∈ List.range' 1 25 := by
    intro x
    constructor
    · intro hx
      rcases List.mem_append.mp hx with hx | hx
      · exact hm0sub x hx
      · exact List.mem_of_mem_filter hx
    · intro hx
      by_cases hxm : x ∈ m0
      · exact List.mem_append_left _ hxm
      · refine List.mem_append_right _ (List.mem_filter.mpr ⟨hx, ?_⟩)
        simp [hxm]
  exact (List.perm_ext_iff_of_nodup hnd (List.nodup_range' _ _)).mpr hmem

/-! ## Validity of the four generated games -/

/-- What the C10 claim asserts of each generated game: a sorted list of
exactly 15 distinct numbers between 1 and 25. -/
def valid15 (g : List ℕ) : Prop :=
  g.length = 15 ∧ g.Sorted (· ≤ ·) ∧ g.Nodup ∧ ∀ n ∈ g, 1 ≤ n ∧ n ≤ 25

theorem valid15_pySort {u : List ℕ} (hlen : u.length = 15) (hnd : u.Nodup)
    (hsub : ∀ x ∈ u, x ∈ List.range' 1 25) : valid15 (pySort u) := by
  refine ⟨by rw [pySort_length, hlen], pySort_sorted u, pySort_nodup hnd, ?_⟩
  intro n hn
  have := hsub n ((pySort_mem u n).mp hn)
  rw [List.mem_range'_1] at this
  omega

theorem mk_AB_valid {freq delay : List ℕ}
    (hf : List.Perm freq (List.range' 1 25)) (hd : List.Perm delay (List.range' 1 25)) :
    valid15 (mk_AB freq delay) := by
  have hflen : freq.length = 25 := by rw [hf.length_eq]; rfl
  have hdlen : delay.length = 25 := by rw [hd.length_eq]; rfl
  have hfnd : freq.Nodup := hf.nodup_iff.mpr (List.nodup_range' _ _)
  have hdnd : delay.Nodup := hd.nodup_iff.mpr (List.nodup_range' _ _)
  obtain ⟨hexa, handa, hmema⟩ := pick_unique_spec freq 8 []
  obtain ⟨hexb, handb, hmemb⟩ := pick_unique_spec delay 7 (_pick_unique freq 8 []).2
  have hla : (_pick_unique freq 8 []).1.length = 8 :=
    pick_unique_length 8 [] hfnd (by omega) (by simp [hflen])
  have hlexa : (_pick_unique freq 8 []).2.length = 8 := by
    rw [hexa]; simpa using hla
  have hlb : (_pick_unique delay 7 (_pick_unique freq 8 []).2).1.length = 7 :=
    pick_unique_length 7 _ hdnd (by omega) (by omega)
  unfold mk_AB
  refine valid15_pySort ?_ ?_ ?_
  · rw [List.length_append, hla, hlb]
  · rw [List.nodup_append]
    refine ⟨handa, handb, ?_⟩
    intro x hx hx'
    have hnot := (hmemb x hx').2
    rw [hexa] at hnot
    simp only [List.nil_append] at hnot
    exact hnot hx
  · intro x hx
    rcases List.mem_append.mp hx with hx | hx
    · exact hf.subset (hmema x hx).1
    · exact hd.subset (hmemb x hx).1

theorem mk_AC_valid {freq mixed : List ℕ}
    (hf : List.Perm freq (List.range' 1 25)) (hm : List.Perm mixed (List.range' 1 25)) :
    valid15 (mk_AC freq mixed) := by
  have hflen : freq.length = 25 := by rw [hf.length_eq]; rfl
  have hmlen : mixed.length = 25 := by rw [hm.length_eq]; rfl
  have hfnd : freq.Nodup := hf.nodup_iff.mpr (List.nodup_range' _ _)
  have hmnd : mixed.Nodup := hm.nodup_iff.mpr (List.nodup_range' _ _)
  obtain ⟨hexa, handa, hmema⟩ := pick_unique_spec freq 8 []
  obtain ⟨hexc, handc, hmemc⟩ := pick_unique_spec mixed 7 (_pick_unique freq 8 []).2
  have hla : (_pick_unique freq 8 []).1.length = 8 :=
    pick_unique_length 8 [] hfnd (by omega) (by simp [hflen])
  have hlexa : (_pick_unique freq 8 []).2.length = 8 := by
    rw [hexa]; simpa using hla
  have hlc : (_pick_unique mixed 7 (_pick_unique freq 8 []).2).1.length = 7 :=
    pick_unique_length 7 _ hmnd (by omega) (by omega)
  unfold mk_AC
  refine valid15_pySort ?_ ?_ ?_
  · rw [List.length_append, hla, hlc]
  · rw [List.nodup_append]
    refine ⟨handa, handc, ?_⟩
    intro x hx hx'
    have hnot := (hmemc x hx').2
    rw [hexa] at hnot
    simp only [List.nil_append] at hnot
    exact hnot hx
  · intro x hx
    rcases List.mem_append.mp hx with hx | hx
    · exact hf.subset (hmema x hx).1
    · exact hm.subset (hmemc x hx).1

theorem mk_AD_valid (pick : ℕ → ℕ) {freq mixed : List ℕ}
    (hf : List.Perm freq (List.range' 1 25)) (hm : List.Perm mixed (List.range' 1 25)) :
    valid15 (mk_AD pick freq mixed) := by
  have hflen : freq.length = 25 := by rw [hf.length_eq]; rfl
  have hmlen : mixed.length = 25 := by rw [hm.length_eq]; rfl
  have hfnd : freq.Nodup := hf.nodup_iff.mpr (List.nodup_range' _ _)
  have hmnd : mixed.Nodup := hm.nodup_iff.mpr (List.nodup_range' _ _)
  obtain ⟨hexa, handa, hmema⟩ := pick_unique_spec freq 8 []
  have hla : (_pick_unique freq 8 []).1.length = 8 :=
    pick_unique_length 8 [] hfnd (by omega) (by simp [hflen])
  have hlexa : (_pick_unique freq 8 []).2.length = 8 := by
    rw [hexa]; simpa using hla
  set a := _pick_unique freq 8 [] with ha
  have hpoolnd : (mixed.filter (fun n => n ∉ a.2)).Nodup := hmnd.filter _
  have hpoollen : 7 ≤ (mixed.filter (fun n => n ∉ a.2)).length := by
    have := @filter_not_mem_length mixed a.2 hmnd
    omega
  have hchosen_len : (drawK pick 7 0 (mixed.filter (fun n => n ∉ a.2))).length = 7 := by
    rw [drawK_length]
    omega
  have hchosen_nd : (drawK pick 7 0 (mixed.filter (fun n => n ∉ a.2))).Nodup :=
    drawK_nodup pick 7 0 _ hpoolnd
  have hchosen_sub := drawK_subset pick 7 0 (mixed.filter (fun n => n ∉ a.2))
  unfold mk_AD
  rw [← ha]
  refine valid15_pySort ?_ ?_ ?_
  · rw [List.length_append, hla, pySort_length, hchosen_len]
  · rw [List.nodup_append]
    refine ⟨handa, pySort_nodup hchosen_nd, ?_⟩
    intro x hx hx'
    have hx'' := hchosen_sub x ((pySort_mem _ x).mp hx')
    have hnot := List.of_mem_filter hx''
    simp only [decide_not, Bool.not_eq_true', decide_eq_false_iff_not] at hnot
    refine hnot ?_
    rw [hexa]
    simpa using hx
  · intro x hx
    rcases List.mem_append.mp hx with hx | hx
    · exact hf.subset (hmema x hx).1
    · exact hm.subset (List.mem_of_mem_filter (hchosen_sub x ((pySort_mem _ x).mp hx)))

theorem mk_BCD_valid {freq delay mixed : List ℕ}
    (hf : List.Perm freq (List.range' 1 25)) (hd : List.Perm delay (List.range' 1 25))
    (hm : List.Perm mixed (List.range' 1 25)) :
    valid15 (mk_BCD freq delay mixed) := by
  have hflen : freq.length = 25 := by rw [hf.length_eq]; rfl
  have hdlen : delay.length = 25 := by rw [hd.length_eq]; rfl
  have hmlen : mixed.length = 25 := by rw [hm.length_eq]; rfl
  have hfnd : freq.Nodup := hf.nodup_iff.mpr (List.nodup_range' _ _)
  have hdnd : delay.Nodup := hd.nodup_iff.mpr (List.nodup_range' _ _)
  have hmnd : mixed.Nodup := hm.nodup_iff.mpr (List.nodup_range' _ _)
  obtain ⟨hexb, handb, hmemb⟩ := pick_unique_spec delay 5 []
  have hlb : (_pick_unique delay 5 []).1.length = 5 :=
    pick_unique_length 5 [] hdnd (by omega) (by simp [hdlen])
  set b := _pick_unique delay 5 [] with hb
  have hlexb : b.2.length = 5 := by rw [hexb]; simpa using hlb
  obtain ⟨hexc, handc, hmemc⟩ := pick_unique_spec mixed 5 b.2
  have hlc : (_pick_unique mixed 5 b.2).1.length = 5 :=
    pick_unique_length 5 _ hmnd (by omega) (by omega)
  set c := _pick_unique mixed 5 b.2 with hc
  have hlexc : c.2.length = 10 := by
    rw [hexc, List.length_append, hlexb, hlc]
  obtain ⟨hexd, handd, hmemd⟩ := pick_unique_spec freq 5 c.2
  have hld : (_pick_unique freq 5 c.2).1.length = 5 :=
    pick_unique_length 5 _ hfnd (by omega) (by omega)
  set d := _pick_unique freq 5 c.2 with hdd
  have hbsub : ∀ x ∈ b.1, x ∈ b.2 := by
    intro x hx
    rw [hexb]
    simpa using hx
  have hcsub : ∀ x ∈ c.1, x ∈ c.2 := by
    intro x hx
    rw [hexc]
    exact List.mem_append_right _ hx
  have hbsubc : ∀ x ∈ b.2, x ∈ c.2 := by
    intro x hx
    rw [hexc]
    exact List.mem_append_left _ hx
  show valid15 (pySort (b.1 ++ c.1 ++ d.1))
  refine valid15_pySort ?_ ?_ ?_
  · rw [List.length_append, List.length_append, hlb, hlc, hld]
  · rw [List.nodup_append]
    refine ⟨?_, handd, ?_⟩
    · rw [List.nodup_append]
      refine ⟨handb, handc, ?_⟩
      intro x hx hx'
      exact (hmemc x hx').2 (hbsub x hx)
    · intro x hx hx'
      rcases List.mem_append.mp hx with hx | hx
      · exact (hmemd x hx').2 (hbsubc x (hbsub x hx))
      · exact (hmemd x hx').2 (hcsub x hx)
  · intro x hx
    rcases List.mem_append.mp hx with hx | hx
    · rcases List.mem_append.mp hx with hx | hx
      · exact hd.subset (hmemb x hx).1
      · exact hm.subset (hmemc x hx).1
    · exact hf.subset (hmemd x hx).1

/-- Every game of `build_abcd_games` is a sorted 15-number selection from
`1..25`, for every oracle and every draw history. -/
theorem build_abcd_games_valid (pick : ℕ → ℕ) (draws : List Draw) :
    valid15 (build_abcd_games pick draws).AB ∧
      valid15 (build_abcd_games pick draws).AC ∧
      valid15 (build_abcd_games pick draws).AD ∧
      valid15 (build_abcd_games pick draws).BCD := by
  have hf := _freq_rank_perm draws 200
  have hd := _delay_rank_perm draws 200
  have hfs : ∀ x ∈ _freq_rank draws 200, x ∈ List.range' 1 25 := fun x hx =>
    hf.mem_iff.mp hx
  have hds : ∀ x ∈ _delay_rank draws 200, x ∈ List.range' 1 25 := fun x hx =>
    hd.mem_iff.mp hx
  have hm := mixedRank_perm hfs hds
  simp only [build_abcd_games]
  exact ⟨mk_AB_valid hf hd, mk_AC_valid hf hm, mk_AD_valid pick hf hm,
    mk_BCD_valid hf hd hm⟩

/-! ## The ABCD game builder of `fechamento_..._FIXED19.py` (lines 3097-3176) -/

instance : Inhabited Draw := ⟨⟨0, 0, [], []⟩⟩

/-- Python `list(dict.fromkeys(l))` / iterating a set built by successive
`add`: deduplication keeping first occurrences. -/
def pyDedupGo : List ℕ → List ℕ → List ℕ
  | [], _ => []
  | n :: rest, seen => if n ∈ seen then pyDedupGo rest seen else n :: pyDedupGo rest (n :: seen)

def pyDedup (l : List ℕ) : List ℕ := pyDedupGo l []

/-- `len(set(jogo) & set(alvo))`: the number of distinct elements of `jogo`
that occur in `alvo`; also `_hits` of `abcd_runner.py` (line 491). -/
def hitsOf (jogo : List ℕ) (alvo : List ℕ) : ℕ :=
  ((pyDedup jogo).filter (fun n => n ∈ alvo)).length

/-- Occurrences with set semantics (`bolas` is a Python set): number of draws
whose outcome contains `n` (the `freq` dict loops of the big script). -/
def count_bolas (use : List Draw) (n : ℕ) : ℕ :=
  (use.map (fun d => if n ∈ d.bolas then 1 else 0)).sum

/-- `_rank_frequency(draws, window=None)` (line 442), as called by the ABCD
builder (always with `window=None`, so the whole history is used): the dict
`{n: count}` in insertion order `1..25`. -/
def _rank_frequency (draws : List Draw) : List (ℕ × ℕ) :=
  (List.range' 1 25).map (fun n => (n, count_bolas draws n))

/-- `delay[n]` of `_rank_delay` (line 450): `len(use)` if `n` never occurs,
else distance from the end to its last occurrence. -/
def delayB (draws : List Draw) (n : ℕ) : ℕ :=
  match draws.reverse.findIdx? (fun d => n ∈ d.bolas) with
  | some k => k
  | none => draws.length

/-- `_rank_delay(draws, window=None)` (line 450), as called by the ABCD
builder. -/
def _rank_delay (draws : List Draw) : List (ℕ × ℕ) :=
  (List.range' 1 25).map (fun n => (n, delayB draws n))

/-- `_topn` inside `_build_abcd_games_from_history` (line 3112): sort the dict
items by value, descending and stable (Python sort), take `n`, keep the keys. -/
def _topn (pairs : List (ℕ × ℕ)) (n : ℕ) : List ℕ :=
  ((sortByKey (fun kv : ℕ × ℕ => -((kv.2 : ℤ))) pairs).take n).map Prod.fst

/-- Python `history[-jr:] if len(history) >= jr else history` (line 3124),
including the `-0` slice quirk (slicing with `-0` keeps the whole list). -/
def sliceLast (jr : ℕ) (l : List Draw) : List Draw :=
  if jr ≤ l.length then (if jr = 0 then l else l.drop (l.length - jr)) else l

/-- The padding loop shared by `_top5_from_counts` (target 5) and the
15-number sanity fixup (target 15): walk `1..25`, append numbers not yet
present, stop as soon as the set reaches exactly `target` elements (the
length test happens after each append, as in the source). -/
def padScan (target : ℕ) : List ℕ → List ℕ → List ℕ
  | [], s => s
  | n :: rest, s =>
      if n ∈ s then padScan target rest s
      else if (s ++ [n]).length = target then s ++ [n]
      else padScan target rest (s ++ [n])

/-- `_top5_from_counts` (line 1613): keys with positive count, sorted by
`(-count, n)` (encoded as `26*(-count) + n`, valid since `n < 26`), first 5,
padded deterministically from `1..25` when fewer than 5. -/
def _top5_from_counts (counts : List (ℕ × ℕ)) : List ℕ :=
  let ranked := sortByKey (fun kv : ℕ × ℕ => (26 : ℤ) * (-(kv.2 : ℤ)) + (kv.1 : ℤ)) counts
  let top := ((ranked.filter (fun kv => 0 < kv.2)).map Prod.fst).take 5
  if top.length < 5 then padScan 5 (List.range' 1 25) top else top

/-- `len(set(a.bolas) & set(b.bolas))` for a consecutive pair. -/
def interSize (p : Draw × Draw) : ℕ :=
  ((pyDedup p.1.bolas).filter (fun n => n ∈ p.2.bolas)).length

/-- Count of consecutive-pair intersections containing `n`
(`global_counts` of `_calc_recent_overlap_stats`, line 1604). -/
def overlapCount (h : List Draw) (n : ℕ) : ℕ :=
  ((h.zip h.tail).filter (fun p => n ∈ p.1.bolas ∧ n ∈ p.2.bolas)).length

/-- `thr_counts` for a given threshold (line 1632). -/
def thrCounts (h : List Draw) (thr : ℕ) : List (ℕ × ℕ) :=
  (List.range' 1 25).map (fun n =>
    (n, ((h.zip h.tail).filter
      (fun p => thr ≤ interSize p ∧ n ∈ p.1.bolas ∧ n ∈ p.2.bolas)).length))

/-- The `for thr in (8, 9, 10)` loop building the candidate groups
(lines 1630-1641). -/
def overlapGroups (h : List Draw) : List (List ℕ) :=
  [8, 9, 10].foldl (fun groups thr =>
    if (h.zip h.tail).any (fun p => thr ≤ interSize p) then
      let g := _top5_from_counts (thrCounts h thr)
      if g ∈ groups then groups else groups ++ [g]
    else groups) []

/-- `_calc_recent_overlap_stats(history, window)` (lines 1580-1650). -/
def _calc_recent_overlap_stats (history : List Draw) (window : ℕ) :
    List ℕ × List (List ℕ) :=
  if history = [] then ([], [])
  else
    let h := if window ≠ 0 ∧ window < history.length then
        history.drop (history.length - window) else history
    if h.length < 2 then
      let base := pySort (pyDedup ((h.getLastD default).bolas))
      let A := (pyDedup (base ++ List.range' 1 25)).take 5
      (A, [A])
    else
      let A_global := _top5_from_counts
        ((List.range' 1 25).map (fun n => (n, overlapCount h n)))
      let groups := overlapGroups h
      (A_global,
        if A_global ∈ groups then A_global :: groups.filter (fun g => g ≠ A_global)
        else A_global :: groups)

/-- The `bestA`/`bestK` selection loop (lines 3139-3146): first group with
the strictly best overlap against the S16 set; `None` only when `groups` is
empty. -/
def argmaxOverlap (s16 : List ℕ) (groups : List (List ℕ)) : Option (List ℕ) :=
  (groups.foldl (fun acc g =>
      if (hitsOf g s16 : ℤ) > acc.2 then (some g, (hitsOf g s16 : ℤ)) else acc)
    ((none : Option (List ℕ)), (-1 : ℤ))).1

/-- `sorted(X | Y)` on two sets represented as lists. -/
def unionSorted (x y : List ℕ) : List ℕ := pySort (pyDedup (x ++ y))

/-- The 15-number sanity fixup at the end of `_build_abcd_games_from_history`
(lines 3157-3169): keep as is when already 15, truncate the sorted set when
larger, pad deterministically from `1..25` when smaller. -/
def normalize15 (jogo : List ℕ) : List ℕ :=
  if jogo.length = 15 then jogo
  else
    let s := pyDedup jogo
    if 15 < s.length then (pySort s).take 15
    else pySort (padScan 15 (List.range' 1 25) s)

/-- `_build_abcd_games_from_history(history, janela_recente, A_por_s16,
s16_nums)` (lines 3097-3176).  The source raises `ValueError` on an empty
history; the empty case is modelled by the empty result and every theorem
assumes a non-empty history. -/
def _build_abcd_games_from_history (history : List Draw) (janela_recente : ℕ)
    (A_por_s16 : Bool) (s16_nums : List ℕ) : AbcdGames :=
  if history = [] then ⟨[], [], [], []⟩
  else
    let B := _topn (_rank_delay history) 10
    let C := _topn (_rank_frequency history) 10
    let recent := sliceLast janela_recente history
    let D := ((sortByKey (fun kv : ℕ × ℕ => ((kv.2 : ℤ)))
      ((List.range' 1 25).map (fun n => (n, count_bolas recent n)))).take 10).map Prod.fst
    let AG := _calc_recent_overlap_stats history janela_recente
    let A := if A_por_s16 ∧ s16_nums ≠ [] then
        match argmaxOverlap s16_nums AG.2 with
        | some g => g
        | none => AG.1
      else AG.1
    ⟨normalize15 (unionSorted A B),
      normalize15 (unionSorted A C),
      normalize15 (unionSorted A D),
      normalize15 (pySort ((pyDedup (B ++ C ++ D)).filter (fun n => n ∉ A)))⟩

/-! ## `compute_abcd_gate_stats` of `fechamento_..._FIXED19.py` (lines 3179-3296)

Money is modelled in `ℚ`.  Python's `float("inf")` for `gap_now` when no
prior success exists is modelled by `Option`: the comparison
`inf >= lo and inf <= hi` is always false because `hi` is a percentile of a
non-empty finite list, which matches `pass = false` in the `none` case. -/

/-- Floor of a rational, computed on its normal form (`⌊x⌋ = num.fdiv den`). -/
def ratFloor (x : ℚ) : ℤ := x.num.fdiv x.den

/-- `round(x, 2)` on the cost; Python rounds half to even, which differs from
this floor-based form only at exact half-cent values — immaterial to the
theorems proved here. -/
def pyRound2 (x : ℚ) : ℚ := ((ratFloor (x * 100 + 1 / 2) : ℤ) : ℚ) / 100

/-- `date(2025, 7, 10).toordinal()`: the bet-price change date. -/
def APOSTA15_CHANGE_ORD : ℕ := 739442

/-- `_infer_aposta15_custo` of the big script (lines 3058-3080): half the
11-hit prize when present, else the date rule (3.50 from 2025-07-10, 3.00
before).  The final `float(fallback)` line is unreachable for well-formed
draws because the date branch always returns. -/
def _infer_aposta15_custo (d : Draw) (fallback : ℚ) : ℚ :=
  let p11 := dictGet d.premios 11 0
  if 0 < p11 then pyRound2 (p11 / 2)
  else if APOSTA15_CHANGE_ORD ≤ d.data then 7 / 2 else 3

/-- `payout_for_hits` of the big script (line 1048): zero outside 11..15. -/
def payout_for_hitsB (d : Draw) (hits : ℕ) : ℚ :=
  if hits < 11 ∨ 15 < hits then 0 else dictGet d.premios hits 0

/-- `games.values()` in dict insertion order. -/
def gamesList (g : AbcdGames) : List (List ℕ) := [g.AB, g.AC, g.AD, g.BCD]

/-- The Selection computed for base index `i`:
`_build_abcd_games_from_history(draws[:i], janela_recente)` (line 3204). -/
def gamesForBase (draws : List Draw) (janela_recente i : ℕ) : AbcdGames :=
  _build_abcd_games_from_history (draws.take i) janela_recente false []

/-- `payout_r` for one target draw: sum over the four games of the payout of
games reaching at least `min_hits` hits (lines 3216-3222). -/
def basePayout (games : AbcdGames) (alvo : Draw) (min_hits : ℕ) : ℚ :=
  ((gamesList games).map (fun jogo =>
    let k := hitsOf jogo alvo.bolas
    if min_hits ≤ k then payout_for_hitsB alvo k else 0)).sum

/-- The teimosinha loop for base `i` (lines 3206-3224): accumulate
`(total_cost, total_payout)` over targets `draws[i .. i+t-1]`. -/
def simWindow (draws : List Draw) (games : AbcdGames) (t min_hits : ℕ)
    (custo15 : ℚ) (i : ℕ) : ℚ × ℚ :=
  (List.range t).foldl (fun acc r =>
    let alvo := draws.getD (i + r) default
    (acc.1 + 4 * _infer_aposta15_custo alvo custo15,
      acc.2 + basePayout games alvo min_hits)) (0, 0)

/-- `profit = total_payout - total_cost` for base `i`. -/
def profitAt (draws : List Draw) (janela_recente t min_hits : ℕ) (custo15 : ℚ)
    (i : ℕ) : ℚ :=
  let s := simWindow draws (gamesForBase draws janela_recente i) t min_hits custo15 i
  s.2 - s.1

/-- The walk-forward base indices `range(1, len(draws) - (teimosinha_n - 1))`;
the count equals `len(draws) - teimosinha_n` clamped at 0 (for `t ≥ 0`). -/
def walkIndices (n t : ℕ) : List ℕ := List.range' 1 ((n : ℤ) - (t : ℤ)).toNat

/-- `success_idx`: the base indices with positive profit (lines 3226-3229). -/
def successIndices (draws : List Draw) (janela_recente t min_hits : ℕ)
    (custo15 : ℚ) : List ℕ :=
  (walkIndices draws.length t).filter
    (fun i => 0 < profitAt draws janela_recente t min_hits custo15 i)

/-- `gaps`: consecutive differences of the success indices (line 3243). -/
def gapsOf (l : List ℕ) : List ℤ :=
  (l.zip l.tail).map (fun ab => (ab.2 : ℤ) - (ab.1 : ℤ))

/-- `last_eval_idx = len(draws) - teimosinha_n` (line 3260). -/
def lastEligibleIdx (n t : ℕ) : ℤ := (n : ℤ) - (t : ℤ)

/-- `last_succ = max([idx for idx in success_idx if idx <= last_eval_idx],
default=None)` (line 3261). -/
def lastSuccess (si : List ℕ) (le : ℤ) : Option ℕ :=
  (si.filter (fun i : ℕ => decide ((i : ℤ) ≤ le))).max?

structure GateStatsB where
  rows : List ℕ
  gaps : List ℤ
  pass : Bool
  reason : Option String
  lo : ℚ
  hi : ℚ
  gap_atual : Option ℤ
deriving Repr, DecidableEq

/-- `compute_abcd_gate_stats` (lines 3179-3296).  `rows` keeps the evaluated
base indices (the per-row diagnostic dicts of the source carry no further
information used by the gate).  `metric` is fixed to its only supported value
`"concursos"` (any other value raises `ValueError` at line 3191, a path the
runner never takes). -/
def compute_abcd_gate_stats (draws : List Draw)
    (janela_recente teimosinha_n min_hits : ℕ) (custo15 : ℚ)
    (gate_percentis : ℚ × ℚ) : GateStatsB :=
  if draws.length < 10 then
    ⟨[], [], false, some "Poucos concursos", 0, 0, none⟩
  else
    let success_idx := successIndices draws janela_recente teimosinha_n min_hits custo15
    let gaps := gapsOf success_idx
    if gaps = [] then
      ⟨walkIndices draws.length teimosinha_n, gaps, false,
        some "Sem sucessos suficientes para calcular percentis", 0, 0, none⟩
    else
      let lo := pyPercentile (gaps.map (fun g => (g : ℚ))) gate_percentis.1
      let hi := pyPercentile (gaps.map (fun g => (g : ℚ))) gate_percentis.2
      let le := lastEligibleIdx draws.length teimosinha_n
      match lastSuccess success_idx le with
      | some s =>
          let gap := le - (s : ℤ)
          ⟨walkIndices draws.length teimosinha_n, gaps,
            decide (lo ≤ (gap : ℚ) ∧ (gap : ℚ) ≤ hi), none, lo, hi, some gap⟩
      | none =>
          ⟨walkIndices draws.length teimosinha_n, gaps, false, none, lo, hi, none⟩

/-! ## Validity of the games built by `_build_abcd_games_from_history` -/

theorem pyDedupGo_spec : ∀ l seen : List ℕ,
    (pyDedupGo l seen).Nodup ∧ ∀ x, x ∈ pyDedupGo l seen ↔ x ∈ l ∧ x ∉ seen := by
  intro l
  induction l with
  | nil => intro seen; simp [pyDedupGo]
  | cons n rest ih =>
    intro seen
    by_cases hn : n ∈ seen
    · obtain ⟨h1, h2⟩ := ih seen
      rw [pyDedupGo, if_pos hn]
      refine ⟨h1, fun x => ?_⟩
      rw [h2 x]
      constructor
      · rintro ⟨hx, hxs⟩
        exact ⟨List.mem_cons_of_mem n hx, hxs⟩
      · rintro ⟨hx, hxs⟩
        rcases List.mem_cons.mp hx with rfl | hx
        · exact absurd hn hxs
        · exact ⟨hx, hxs⟩
    · obtain ⟨h1, h2⟩ := ih (n :: seen)
      rw [pyDedupGo, if_neg hn]
      constructor
      · refine List.nodup_cons.mpr ⟨?_, h1⟩
        intro hmem
        exact ((h2 n).mp hmem).2 (List.mem_cons_self n seen)
      · intro x
        rw [List.mem_cons, h2 x]
        constructor
        · rintro (rfl | ⟨hx, hxs⟩)
          · exact ⟨List.mem_cons_self x rest, hn⟩
          · refine ⟨List.mem_cons_of_mem n hx, ?_⟩
            intro hxe
            exact hxs (List.mem_cons_of_mem n hxe)
        · rintro ⟨hx, hxs⟩
          by_cases hxn : x = n
          · exact Or.inl hxn
          · have hx' : x ∈ rest := by
              rcases List.mem_cons.mp hx with h | h
              · exact absurd h hxn
              · exact h
            refine Or.inr ⟨hx', ?_⟩
            intro hxe
            rcases List.mem_cons.mp hxe with h | h
            · exact hxn h
            · exact hxs h

theorem pyDedup_nodup (l : List ℕ) : (pyDedup l).Nodup := (pyDedupGo_spec l []).1

theorem pyDedup_mem (l : List ℕ) (x : ℕ) : x ∈ pyDedup l ↔ x ∈ l := by
  rw [pyDedup, (pyDedupGo_spec l []).2 x]
  simp

theorem padScan_spec (target : ℕ) : ∀ l s : List ℕ,
    s.Nodup → l.Nodup → s.length < target →
    target ≤ s.length + (l.filter (fun n => n ∉ s)).length →
    (padScan target l s).Nodup ∧ (padScan target l s).length = target ∧
      ∀ x ∈ padScan target l s, x ∈ s ∨ x ∈ l := by
  intro l
  induction l with
  | nil =>
    intro s _ _ hlt htot
    simp only [List.filter_nil, List.length_nil, Nat.add_zero] at htot
    omega
  | cons n rest ih =>
    intro s hs hl hlt htot
    obtain ⟨hn, hrest⟩ := List.nodup_cons.mp hl
    by_cases hns : n ∈ s
    · have hf : (n :: rest).filter (fun m => m ∉ s) = rest.filter (fun m => m ∉ s) := by
        rw [List.filter_cons_of_neg]
        simp [hns]
      rw [hf] at htot
      rw [padScan, if_pos hns]
      obtain ⟨h1, h2, h3⟩ := ih s hs hrest hlt htot
      exact ⟨h1, h2, fun x hx => (h3 x hx).imp id (List.mem_cons_of_mem n)⟩
    · have hf : (n :: rest).filter (fun m => m ∉ s) =
          n :: rest.filter (fun m => m ∉ s) := by
        rw [List.filter_cons_of_pos]
        simp [hns]
      rw [hf, List.length_cons] at htot
      have hsnd : (s ++ [n]).Nodup := by
        rw [List.nodup_append]
        exact ⟨hs, List.nodup_singleton n, by
          intro x hx hx'
          rw [List.mem_singleton] at hx'
          exact hns (hx' ▸ hx)⟩
      by_cases htgt : (s ++ [n]).length = target
      · rw [padScan, if_neg hns, if_pos htgt]
        refine ⟨hsnd, htgt, ?_⟩
        intro x hx
        rcases List.mem_append.mp hx with hx | hx
        · exact Or.inl hx
        · rw [List.mem_singleton] at hx
          exact Or.inr (hx ▸ List.mem_cons_self n rest)
      · rw [padScan, if_neg hns, if_neg htgt]
        have hlen : (s ++ [n]).length = s.length + 1 := by simp
        have hlt' : (s ++ [n]).length < target := by omega
        have hfrw : rest.filter (fun m => m ∉ s ++ [n]) =
            rest.filter (fun m => m ∉ s) := by
          refine List.filter_congr ?_
          intro x hx
          have hxn : x ≠ n := fun h => hn (h ▸ hx)
          simp [List.mem_append, hxn]
        have htot' : target ≤ (s ++ [n]).length +
            (rest.filter (fun m => m ∉ s ++ [n])).length := by
          rw [hfrw, hlen]
          omega
        obtain ⟨h1, h2, h3⟩ := ih (s ++ [n]) hsnd hrest hlt' htot'
        refine ⟨h1, h2, ?_⟩
        intro x hx
        rcases h3 x hx with hx | hx
        · rcases List.mem_append.mp hx with hx | hx
          · exact Or.inl hx
          · rw [List.mem_singleton] at hx
            exact Or.inr (hx ▸ List.mem_cons_self n rest)
        · exact Or.inr (List.mem_cons_of_mem n hx)

/-- Facts about a group of numbers used by the builder: distinct and inside
`1..25`. -/
def groupOK (g : List ℕ) : Prop := g.Nodup ∧ ∀ x ∈ g, x ∈ List.range' 1 25

theorem sortPairs_fst_perm {K : Type} [LinearOrder K] (key : ℕ × ℕ → K) (f : ℕ → ℕ) :
    List.Perm ((sortByKey key ((List.range' 1 25).map (fun m => (m, f m)))).map Prod.fst)
      (List.range' 1 25) := by
  have h1 := (sortByKey_perm key ((List.range' 1 25).map (fun m => (m, f m)))).map Prod.fst
  have h2 : ((List.range' 1 25).map (fun m => (m, f m))).map Prod.fst =
      List.range' 1 25 := by
    rw [List.map_map]
    have hcomp : (Prod.fst ∘ fun m : ℕ => (m, f m)) = id := rfl
    rw [hcomp, List.map_id]
  rw [h2] at h1
  exact h1

theorem take_fst_groupOK {K : Type} [LinearOrder K] (key : ℕ × ℕ → K) (f : ℕ → ℕ)
    (n : ℕ) :
    groupOK (((sortByKey key ((List.range' 1 25).map (fun m => (m, f m)))).take n).map
      Prod.fst) := by
  have hperm := sortPairs_fst_perm key f
  have hnd : ((sortByKey key ((List.range' 1 25).map (fun m => (m, f m)))).map
      Prod.fst).Nodup := hperm.nodup_iff.mpr (List.nodup_range' _ _)
  rw [List.map_take]
  constructor
  · exact (List.take_sublist n _).nodup hnd
  · intro x hx
    exact hperm.subset ((List.take_sublist n _).subset hx)

theorem topn_groupOK (f : ℕ → ℕ) (n : ℕ) :
    groupOK (_topn ((List.range' 1 25).map (fun m => (m, f m))) n) :=
  take_fst_groupOK _ f n

theorem top5_groupOK (f : ℕ → ℕ) :
    groupOK (_top5_from_counts ((List.range' 1 25).map (fun n => (n, f n)))) := by
  unfold _top5_from_counts
  set ranked := sortByKey (fun kv : ℕ × ℕ => (26 : ℤ) * (-(kv.2 : ℤ)) + (kv.1 : ℤ))
    ((List.range' 1 25).map (fun n => (n, f n))) with hranked
  have hnd : (ranked.map Prod.fst).Nodup :=
    (sortPairs_fst_perm _ f).nodup_iff.mpr (List.nodup_range' _ _)
  have hsubl : ((ranked.filter (fun kv => 0 < kv.2)).map Prod.fst).Sublist
      (ranked.map Prod.fst) := (List.filter_sublist _).map Prod.fst
  have htopnd : (((ranked.filter (fun kv => 0 < kv.2)).map Prod.fst).take 5).Nodup :=
    (List.take_sublist 5 _).nodup (hsubl.nodup hnd)
  have htopsub : ∀ x ∈ ((ranked.filter (fun kv => 0 < kv.2)).map Prod.fst).take 5,
      x ∈ List.range' 1 25 := by
    intro x hx
    exact (sortPairs_fst_perm _ f).subset
      (hsubl.subset ((List.take_sublist 5 _).subset hx))
  by_cases hlen : (((ranked.filter (fun kv => 0 < kv.2)).map Prod.fst).take 5).length < 5
  · rw [if_pos hlen]
    have hflen := @filter_not_mem_length (List.range' 1 25)
      (((ranked.filter (fun kv => 0 < kv.2)).map Prod.fst).take 5)
      (List.nodup_range' _ _)
    obtain ⟨h1, _, h3⟩ := padScan_spec 5 (List.range' 1 25) _
      htopnd (List.nodup_range' _ _) hlen (by simp at hflen ⊢; omega)
    refine ⟨h1, ?_⟩
    intro x hx
    rcases h3 x hx with hx | hx
    · exact htopsub x hx
    · exact hx
  · rw [if_neg hlen]
    exact ⟨htopnd, htopsub⟩

theorem overlapGroups_groupOK (h : List Draw) :
    ∀ g ∈ overlapGroups h, groupOK g := by
  unfold overlapGroups
  have key : ∀ (thrs : List ℕ) (acc : List (List ℕ)), (∀ g ∈ acc, groupOK g) →
      ∀ g ∈ thrs.foldl (fun groups thr =>
        if (h.zip h.tail).any (fun p => thr ≤ interSize p) then
          let g := _top5_from_counts (thrCounts h thr)
          if g ∈ groups then groups else groups ++ [g]
        else groups) acc, groupOK g := by
    intro thrs
    induction thrs with
    | nil => intro acc hacc g hg; exact hacc g hg
    | cons thr rest ih =>
      intro acc hacc g hg
      refine ih _ ?_ g hg
      intro g' hg'
      by_cases hany : (h.zip h.tail).any (fun p => thr ≤ interSize p)
      · simp only [hany, if_true] at hg'
        by_cases hmem : _top5_from_counts (thrCounts h thr) ∈ acc
        · simp only [hmem, if_pos] at hg'
          exact hacc g' hg'
        · simp only [hmem, if_neg, ite_false] at hg'
          rcases List.mem_append.mp hg' with hg' | hg'
          · exact hacc g' hg'
          · rw [List.mem_singleton] at hg'
            rw [hg']
            exact top5_groupOK _
      · simp only [hany, if_false] at hg'
        exact hacc g' hg'
  intro g hg
  exact key [8, 9, 10] [] (by simp) g hg

theorem argmax_fold_mem (s16 : List ℕ) (P : List ℕ → Prop) :
    ∀ (l : List (List ℕ)) (acc : Option (List ℕ) × ℤ),
      (∀ g, acc.1 = some g → P g) → (∀ g ∈ l, P g) →
      ∀ g, (l.foldl (fun acc g =>
          if (hitsOf g s16 : ℤ) > acc.2 then (some g, (hitsOf g s16 : ℤ))
          else acc) acc).1 = some g → P g := by
  intro l
  induction l with
  | nil => intro acc hacc _ g hg; exact hacc g hg
  | cons a rest ih =>
    intro acc hacc hl g hg
    refine ih _ ?_ (fun g' hg' => hl g' (List.mem_cons_of_mem a hg')) g hg
    intro g' hg'
    by_cases hcmp : (hitsOf a s16 : ℤ) > acc.2
    · simp only [hcmp, if_pos] at hg'
      cases hg'
      exact hl a (List.mem_cons_self a rest)
    · simp only [hcmp, if_neg, ite_false] at hg'
      exact hacc g' hg'

theorem argmaxOverlap_mem (s16 : List ℕ) (groups : List (List ℕ)) (g : List ℕ)
    (hg : argmaxOverlap s16 groups = some g) : g ∈ groups := by
  unfold argmaxOverlap at hg
  exact argmax_fold_mem s16 (fun g => g ∈ groups) groups (none, -1)
    (by intro g' h; cases h) (fun g' hg' => hg') g hg

theorem calc_stats_groupOK (history : List Draw) (window : ℕ)
    (hne : history ≠ [])
    (hval : ∀ d ∈ history, ∀ n ∈ d.bolas, n ∈ List.range' 1 25) :
    ∀ A G, _calc_recent_overlap_stats history window = (A, G) →
      groupOK A ∧ ∀ g ∈ G, groupOK g := by
  intro A G heq
  unfold _calc_recent_overlap_stats at heq
  rw [if_neg hne] at heq
  dsimp only at heq
  set h := if window ≠ 0 ∧ window < history.length then
      history.drop (history.length - window) else history with hh
  have hhsub : ∀ d ∈ h, d ∈ history := by
    intro d hd
    rw [hh] at hd
    split at hd
    · exact (List.drop_sublist _ _).subset hd
    · exact hd
  have hhne : h ≠ [] := by
    rw [hh]
    split
    · intro hcon
      have h2 : (history.drop (history.length - window)).length =
          history.length - (history.length - window) := List.length_drop _ _
      rw [hcon] at h2
      simp only [List.length_nil] at h2
      rename_i hw
      omega
    · exact hne
  by_cases hlen : h.length < 2
  · rw [if_pos hlen] at heq
    rw [Prod.mk.injEq] at heq
    obtain ⟨hA, hG⟩ := heq
    subst hA
    subst hG
    have hlast : h.getLastD default ∈ history := by
      refine hhsub _ ?_
      rw [List.getLastD_eq_getLast?, List.getLast?_eq_getLast h hhne]
      exact List.getLast_mem hhne
    have hbsub : ∀ x ∈ pySort (pyDedup (h.getLastD default).bolas),
        x ∈ List.range' 1 25 := by
      intro x hx
      rw [pySort_mem, pyDedup_mem] at hx
      exact hval _ hlast x hx
    have hAnd : ((pyDedup (pySort (pyDedup (h.getLastD default).bolas) ++
        List.range' 1 25)).take 5).Nodup :=
      (List.take_sublist 5 _).nodup (pyDedup_nodup _)
    have hAsub : ∀ x ∈ (pyDedup (pySort (pyDedup (h.getLastD default).bolas) ++
        List.range' 1 25)).take 5, x ∈ List.range' 1 25 := by
      intro x hx
      have := (List.take_sublist 5 _).subset hx
      rw [pyDedup_mem] at this
      rcases List.mem_append.mp this with hx' | hx'
      · exact hbsub x hx'
      · exact hx'
    refine ⟨⟨hAnd, hAsub⟩, ?_⟩
    intro g hg
    rw [List.mem_singleton] at hg
    rw [hg]
    exact ⟨hAnd, hAsub⟩
  · rw [if_neg hlen] at heq
    rw [Prod.mk.injEq] at heq
    obtain ⟨hA, hG⟩ := heq
    subst hA
    subst hG
    set A5 := _top5_from_counts
        ((List.range' 1 25).map (fun n => (n, overlapCount h n))) with hA5
    set G0 := overlapGroups h with hG0
    have hAG : groupOK A5 := top5_groupOK (fun n => overlapCount h n)
    have hGOK : ∀ g ∈ G0, groupOK g := fun g hg => overlapGroups_groupOK h g hg
    refine ⟨hAG, ?_⟩
    intro g hg
    by_cases hmem : A5 ∈ G0
    · rw [if_pos hmem] at hg
      have hor := List.mem_cons.mp hg
      refine Or.elim hor (fun heq => ?_) (fun hm2 => hGOK g (List.mem_of_mem_filter hm2))
      rw [heq]
      exact hAG
    · rw [if_neg hmem] at hg
      have hor := List.mem_cons.mp hg
      refine Or.elim hor (fun heq => ?_) (fun hm2 => hGOK g hm2)
      rw [heq]
      exact hAG

theorem pyDedupGo_eq_self : ∀ l seen : List ℕ, l.Nodup → (∀ x ∈ l, x ∉ seen) →
    pyDedupGo l seen = l := by
  intro l
  induction l with
  | nil => intro seen _ _; rfl
  | cons n rest ih =>
    intro seen hnd hdis
    obtain ⟨hn, hrest⟩ := List.nodup_cons.mp hnd
    rw [pyDedupGo, if_neg (hdis n (List.mem_cons_self n rest))]
    congr 1
    refine ih (n :: seen) hrest ?_
    intro x hx hxs
    rcases List.mem_cons.mp hxs with rfl | hxs
    · exact hn hx
    · exact hdis x (List.mem_cons_of_mem n hx) hxs

theorem pyDedup_eq_self {l : List ℕ} (h : l.Nodup) : pyDedup l = l :=
  pyDedupGo_eq_self l [] h (by simp)

theorem normalize15_valid {jogo : List ℕ} (hnd : jogo.Nodup)
    (hsort : jogo.Sorted (· ≤ ·)) (hsub : ∀ x ∈ jogo, x ∈ List.range' 1 25) :
    valid15 (normalize15 jogo) := by
  unfold normalize15
  by_cases h15 : jogo.length = 15
  · rw [if_pos h15]
    refine ⟨h15, hsort, hnd, ?_⟩
    intro n hn
    have := hsub n hn
    rw [List.mem_range'_1] at this
    omega
  · rw [if_neg h15]
    have hs : pyDedup jogo = jogo := pyDedup_eq_self hnd
    dsimp only
    rw [hs]
    by_cases hgt : 15 < jogo.length
    · rw [if_pos hgt]
      refine ⟨?_, ?_, ?_, ?_⟩
      · rw [List.length_take, pySort_length]
        omega
      · exact List.Pairwise.sublist (List.take_sublist _ _) (pySort_sorted jogo)
      · exact (List.take_sublist _ _).nodup (pySort_nodup hnd)
      · intro n hn
        have hmem := (List.take_sublist _ _).subset hn
        rw [pySort_mem] at hmem
        have := hsub n hmem
        rw [List.mem_range'_1] at this
        omega
    · rw [if_neg hgt]
      have hlt : jogo.length < 15 := by omega
      have hcond : 15 ≤ jogo.length +
          ((List.range' 1 25).filter (fun n => n ∉ jogo)).length := by
        have hfl := @filter_not_mem_length (List.range' 1 25) jogo
          (List.nodup_range' _ _)
        rw [List.length_range'] at hfl
        omega
      obtain ⟨h1, h2, h3⟩ := padScan_spec 15 (List.range' 1 25) jogo hnd
        (List.nodup_range' _ _) hlt hcond
      refine ⟨?_, pySort_sorted _, pySort_nodup h1, ?_⟩
      · rw [pySort_length, h2]
      · intro n hn
        rw [pySort_mem] at hn
        rcases h3 n hn with hn | hn
        · have := hsub n hn
          rw [List.mem_range'_1] at this
          omega
        · rw [List.mem_range'_1] at hn
          omega

theorem unionSorted_ok {x y : List ℕ} (hx : ∀ a ∈ x, a ∈ List.range' 1 25)
    (hy : ∀ a ∈ y, a ∈ List.range' 1 25) :
    (unionSorted x y).Nodup ∧ (unionSorted x y).Sorted (· ≤ ·) ∧
      ∀ a ∈ unionSorted x y, a ∈ List.range' 1 25 := by
  refine ⟨pySort_nodup (pyDedup_nodup _), pySort_sorted _, ?_⟩
  intro a ha
  rw [unionSorted, pySort_mem, pyDedup_mem] at ha
  rcases List.mem_append.mp ha with ha | ha
  · exact hx a ha
  · exact hy a ha

/-- Every game of `_build_abcd_games_from_history` is a sorted 15-number
selection from `1..25`, for every non-empty history of well-formed draws,
window, and S16 configuration. -/
theorem build_from_history_valid (history : List Draw) (jr : ℕ) (aP : Bool)
    (s16 : List ℕ) (hne : history ≠ [])
    (hval : ∀ d ∈ history, ∀ n ∈ d.bolas, n ∈ List.range' 1 25) :
    valid15 (_build_abcd_games_from_history history jr aP s16).AB ∧
      valid15 (_build_abcd_games_from_history history jr aP s16).AC ∧
      valid15 (_build_abcd_games_from_history history jr aP s16).AD ∧
      valid15 (_build_abcd_games_from_history history jr aP s16).BCD := by
  simp only [_build_abcd_games_from_history]
  rw [if_neg hne]
  dsimp only
  set AG := _calc_recent_overlap_stats history jr with hAGd
  have hpair : _calc_recent_overlap_stats history jr = (AG.1, AG.2) := by
    rw [← hAGd]
  obtain ⟨hAG1, hAG2⟩ := calc_stats_groupOK history jr hne hval AG.1 AG.2 hpair
  have hrd : _rank_delay history =
      (List.range' 1 25).map (fun n => (n, delayB history n)) := rfl
  have hrf : _rank_frequency history =
      (List.range' 1 25).map (fun n => (n, count_bolas history n)) := rfl
  have hB : groupOK (_topn (_rank_delay history) 10) := by
    rw [hrd]
    exact topn_groupOK (delayB history) 10
  have hC : groupOK (_topn (_rank_frequency history) 10) := by
    rw [hrf]
    exact topn_groupOK (count_bolas history) 10
  have hD : groupOK (((sortByKey (fun kv : ℕ × ℕ => ((kv.2 : ℤ)))
      ((List.range' 1 25).map (fun n => (n, count_bolas (sliceLast jr history) n)))).take
      10).map Prod.fst) := take_fst_groupOK _ _ 10
  have hA : groupOK (if aP ∧ s16 ≠ [] then
      match argmaxOverlap s16 AG.2 with
      | some g => g
      | none => AG.1
      else AG.1) := by
    by_cases hc : aP ∧ s16 ≠ []
    · rw [if_pos hc]
      cases hopt : argmaxOverlap s16 AG.2 with
      | some g =>
        show groupOK g
        exact hAG2 g (argmaxOverlap_mem s16 AG.2 g hopt)
      | none =>
        show groupOK AG.1
        exact hAG1
    · rw [if_neg hc]
      exact hAG1
  set A := (if aP ∧ s16 ≠ [] then
      match argmaxOverlap s16 AG.2 with
      | some g => g
      | none => AG.1
      else AG.1) with hAd
  set B := _topn (_rank_delay history) 10 with hBd
  set C := _topn (_rank_frequency history) 10 with hCd
  set D := ((sortByKey (fun kv : ℕ × ℕ => ((kv.2 : ℤ)))
      ((List.range' 1 25).map (fun n => (n, count_bolas (sliceLast jr history) n)))).take
      10).map Prod.fst with hDd
  obtain ⟨hABnd, hABs, hABr⟩ := unionSorted_ok hA.2 hB.2
  obtain ⟨hACnd, hACs, hACr⟩ := unionSorted_ok hA.2 hC.2
  obtain ⟨hADnd, hADs, hADr⟩ := unionSorted_ok hA.2 hD.2
  have hBCDnd : ((pyDedup (B ++ C ++ D)).filter (fun n => n ∉ A)).Nodup :=
    (pyDedup_nodup _).filter _
  have hBCDr : ∀ a ∈ (pyDedup (B ++ C ++ D)).filter (fun n => n ∉ A),
      a ∈ List.range' 1 25 := by
    intro a ha
    have hmem := List.mem_of_mem_filter ha
    rw [pyDedup_mem] at hmem
    rcases List.mem_append.mp hmem with hmem | hmem
    · rcases List.mem_append.mp hmem with hmem | hmem
      · exact hB.2 a hmem
      · exact hC.2 a hmem
    · exact hD.2 a hmem
  refine ⟨normalize15_valid hABnd hABs hABr, normalize15_valid hACnd hACs hACr,
    normalize15_valid hADnd hADs hADr, ?_⟩
  refine normalize15_valid (pySort_nodup hBCDnd) (pySort_sorted _) ?_
  intro a ha
  rw [pySort_mem] at ha
  exact hBCDr a ha

/-- C10: for every non-empty history of well-formed draws, each of the four
games returned by `build_abcd_games` (abcd_runner.py, any RNG stream) and by
`_build_abcd_games_from_history` (big script, any window and S16
configuration) is a sorted list of exactly 15 distinct numbers, each between
1 and 25 inclusive. -/
theorem abcd_games_are_valid_selections (pick : ℕ → ℕ) (draws : List Draw)
    (jr : ℕ) (aP : Bool) (s16 : List ℕ) (hne : draws ≠ [])
    (hval : ∀ d ∈ draws, ∀ n ∈ d.bolas, 1 ≤ n ∧ n ≤ 25) :
    (valid15 (build_abcd_games pick draws).AB ∧
      valid15 (build_abcd_games pick draws).AC ∧
      valid15 (build_abcd_games pick draws).AD ∧
      valid15 (build_abcd_games pick draws).BCD) ∧
      (valid15 (_build_abcd_games_from_history draws jr aP s16).AB ∧
        valid15 (_build_abcd_games_from_history draws jr aP s16).AC ∧
        valid15 (_build_abcd_games_from_history draws jr aP s16).AD ∧
        valid15 (_build_abcd_games_from_history draws jr aP s16).BCD) := by
  refine ⟨build_abcd_games_valid pick draws,
    build_from_history_valid draws jr aP s16 hne ?_⟩
  intro d hd n hn
  rw [List.mem_range'_1]
  have := hval d hd n hn
  omega

/-- Concrete instantiation of `abcd_games_are_valid_selections` at a single
well-formed draw. -/
theorem abcd_games_are_valid_selections_witness :
    (valid15 (build_abcd_games (fun _ => 0) [⟨1, 1, [1, 2, 3], []⟩]).AB ∧
      valid15 (build_abcd_games (fun _ => 0) [⟨1, 1, [1, 2, 3], []⟩]).AC ∧
      valid15 (build_abcd_games (fun _ => 0) [⟨1, 1, [1, 2, 3], []⟩]).AD ∧
      valid15 (build_abcd_games (fun _ => 0) [⟨1, 1, [1, 2, 3], []⟩]).BCD) ∧
      (valid15 (_build_abcd_games_from_history [⟨1, 1, [1, 2, 3], []⟩] 40 false []).AB ∧
        valid15 (_build_abcd_games_from_history [⟨1, 1, [1, 2, 3], []⟩] 40 false []).AC ∧
        valid15 (_build_abcd_games_from_history [⟨1, 1, [1, 2, 3], []⟩] 40 false []).AD ∧
        valid15 (_build_abcd_games_from_history [⟨1, 1, [1, 2, 3], []⟩] 40 false []).BCD) :=
  abcd_games_are_valid_selections (fun _ => 0) [⟨1, 1, [1, 2, 3], []⟩] 40 false []
    (by decide) (by decide)

/-- C4: the Selection used for the base-`i` success record is
`_build_abcd_games_from_history(draws[:i], ...)`, a function of the history
prefix `draws[:i]` only — two draw lists agreeing on their first `i` elements
yield identical games for base `i`, so mutating any event at index `j ≥ i`
cannot change them (two-run no-lookahead property). -/
theorem no_lookahead_games (draws draws' : List Draw) (jr i : ℕ)
    (h : draws.take i = draws'.take i) :
    gamesForBase draws jr i = gamesForBase draws' jr i := by
  unfold gamesForBase
  rw [h]

/-- Concrete instantiation of `no_lookahead_games`: changing the second draw
does not change the games generated for base index 1. -/
theorem no_lookahead_games_witness :
    gamesForBase [⟨1, 1, [1], []⟩, ⟨2, 2, [2], []⟩] 40 1 =
      gamesForBase [⟨1, 1, [1], []⟩, ⟨3, 3, [3, 4], []⟩] 40 1 :=
  no_lookahead_games [⟨1, 1, [1], []⟩, ⟨2, 2, [2], []⟩]
    [⟨1, 1, [1], []⟩, ⟨3, 3, [3, 4], []⟩] 40 1 (by decide)

/-- C5: when the draw history passes the length guard and the gap series is
non-empty, the gate passes iff the current gap — from
`lastEligibleIndex = len(draws) − windowLength` back to the greatest success
index not exceeding it — lies within `[bandLow, bandHigh]`, inclusive on both
ends, where the band ends are the configured percentiles of the gap series;
the decision fails when no such prior success exists. -/
theorem gate_pass_iff_band (draws : List Draw) (jr t mh : ℕ) (c15 pl ph : ℚ)
    (hlen : 10 ≤ draws.length)
    (hgaps : gapsOf (successIndices draws jr t mh c15) ≠ []) :
    ((compute_abcd_gate_stats draws jr t mh c15 (pl, ph)).pass = true ↔
      ∃ s, lastSuccess (successIndices draws jr t mh c15)
          (lastEligibleIdx draws.length t) = some s ∧
        (compute_abcd_gate_stats draws jr t mh c15 (pl, ph)).lo ≤
          ((lastEligibleIdx draws.length t - (s : ℤ) : ℤ) : ℚ) ∧
        ((lastEligibleIdx draws.length t - (s : ℤ) : ℤ) : ℚ) ≤
          (compute_abcd_gate_stats draws jr t mh c15 (pl, ph)).hi) ∧
      (lastSuccess (successIndices draws jr t mh c15)
          (lastEligibleIdx draws.length t) = none →
        (compute_abcd_gate_stats draws jr t mh c15 (pl, ph)).pass = false) ∧
      (compute_abcd_gate_stats draws jr t mh c15 (pl, ph)).lo =
        pyPercentile ((gapsOf (successIndices draws jr t mh c15)).map
          (fun g => (g : ℚ))) pl ∧
      (compute_abcd_gate_stats draws jr t mh c15 (pl, ph)).hi =
        pyPercentile ((gapsOf (successIndices draws jr t mh c15)).map
          (fun g => (g : ℚ))) ph := by
  unfold compute_abcd_gate_stats
  rw [if_neg (by omega)]
  dsimp only
  rw [if_neg hgaps]
  cases hopt : lastSuccess (successIndices draws jr t mh c15)
      (lastEligibleIdx draws.length t) with
  | some s =>
    dsimp only
    refine ⟨?_, ?_, rfl, rfl⟩
    · rw [decide_eq_true_eq]
      constructor
      · rintro ⟨h1, h2⟩
        exact ⟨s, rfl, h1, h2⟩
      · rintro ⟨s', hs', h1, h2⟩
        have : s' = s := by
          injection hs' with h
          exact h.symm
        rw [this] at h1 h2
        exact ⟨h1, h2⟩
    · intro hcon
      cases hcon
  | none =>
    dsimp only
    refine ⟨?_, fun _ => rfl, rfl, rfl⟩
    constructor
    · intro hcon
      cases hcon
    · rintro ⟨s', hs', _, _⟩
      cases hs'

/-- Twelve identical draws, rich 15-hit prize: both walk-forward bases
succeed, so the gap series is non-empty. -/
def draws12 : List Draw :=
  (List.range' 1 12).map (fun i =>
    ⟨i, i, [1, 2, 3, 4, 5, 6, 7, 8, 9, 10, 11, 12, 13, 14, 15],
      [(11, 7), (15, 1000000)]⟩)

/-- Concrete instantiation of `gate_pass_iff_band` at `draws12` with
`teimosinha_n = 10`. -/
theorem gate_pass_iff_band_witness :
    ((compute_abcd_gate_stats draws12 40 10 11 3 (25, 75)).pass = true ↔
      ∃ s, lastSuccess (successIndices draws12 40 10 11 3)
          (lastEligibleIdx draws12.length 10) = some s ∧
        (compute_abcd_gate_stats draws12 40 10 11 3 (25, 75)).lo ≤
          ((lastEligibleIdx draws12.length 10 - (s : ℤ) : ℤ) : ℚ) ∧
        ((lastEligibleIdx draws12.length 10 - (s : ℤ) : ℤ) : ℚ) ≤
          (compute_abcd_gate_stats draws12 40 10 11 3 (25, 75)).hi) ∧
      (lastSuccess (successIndices draws12 40 10 11 3)
          (lastEligibleIdx draws12.length 10) = none →
        (compute_abcd_gate_stats draws12 40 10 11 3 (25, 75)).pass = false) ∧
      (compute_abcd_gate_stats draws12 40 10 11 3 (25, 75)).lo =
        pyPercentile ((gapsOf (successIndices draws12 40 10 11 3)).map
          (fun g => (g : ℚ))) 25 ∧
      (compute_abcd_gate_stats draws12 40 10 11 3 (25, 75)).hi =
        pyPercentile ((gapsOf (successIndices draws12 40 10 11 3)).map
          (fun g => (g : ℚ))) 75 :=
  gate_pass_iff_band draws12 40 10 11 3 25 75 (by decide)
    (by with_unfolding_all decide)

/-- C6 (amended): the insufficient-history guard of `compute_abcd_gate_stats`
is the fixed test `len(draws) < 10` — a constant, independent of the window
length — with reason "Poucos concursos"; it returns the empty result with
`pass = false`. -/
theorem gate_insufficient_guard (draws : List Draw) (jr t mh : ℕ) (c15 pl ph : ℚ)
    (h : draws.length < 10) :
    compute_abcd_gate_stats draws jr t mh c15 (pl, ph) =
      ⟨[], [], false, some "Poucos concursos", 0, 0, none⟩ := by
  unfold compute_abcd_gate_stats
  rw [if_pos h]

/-- Concrete instantiation of `gate_insufficient_guard` on the empty history
with `teimosinha_n = 37`. -/
theorem gate_insufficient_guard_witness :
    compute_abcd_gate_stats [] 40 37 11 3 (25, 75) =
      ⟨[], [], false, some "Poucos concursos", 0, 0, none⟩ :=
  gate_insufficient_guard [] 40 37 11 3 25 75 (by decide)

/-- Twenty draws: more than the constant guard 10, but fewer than
`windowLength + 2` for the default window 37. -/
def draws20 : List Draw := (List.range' 1 20).map (fun i => ⟨i, i, [1, 2, 3], []⟩)

/-- C6 counterexample: with 20 draws and `windowLength = 37`,
`len(draws) < windowLength + 2` holds, yet the computation does not return the
insufficient-history reason — it falls through the `len(draws) < 10` guard and
fails with the no-successes reason instead. -/
theorem gate_insufficient_counterexample :
    draws20.length < 37 + 2 ∧
      (compute_abcd_gate_stats draws20 40 37 11 3 (25, 75)).reason =
        some "Sem sucessos suficientes para calcular percentis" ∧
      (compute_abcd_gate_stats draws20 40 37 11 3 (25, 75)).reason ≠
        some "Poucos concursos" := by
  refine ⟨by decide, by decide, by decide⟩

/-! ## Campaign lifecycle of `abcd_runner.py`
(`update_campaigns`, lines 516-606; `maybe_start_campaign`, lines 608-640)

The JSON campaign dicts are modelled as structures carrying exactly the keys
the code reads and writes; the `updated_at` timestamp written by
`_save_campaign_state` (line 509) is modelled by the `now` parameter. -/

structure DailyEntry where
  concurso : ℕ
  data : ℕ
  best_hits : ℕ
  hits : List (String × ℕ)
  offset : ℕ
deriving Repr, DecidableEq

structure Campaign where
  id : String
  status : String
  created_at : ℕ
  start_concurso : ℕ
  teimosinha_n : ℕ
  min_hits_stop : ℕ
  games : List (String × List ℕ)
  best_hits : ℕ
  best_when : Option ℕ
  best_offset : Option ℕ
  daily : List DailyEntry
  closed_reason : Option String
  closed_at_concurso : Option ℕ
deriving Repr, DecidableEq

structure CampaignState where
  version : ℕ
  updated_at : Option ℕ
  campaigns : List Campaign
deriving Repr, DecidableEq

/-- `draws[-1].concurso if draws else 0`. -/
def maxConcurso (draws : List Draw) : ℕ := ((draws.getLast?).map (fun d => d.concurso)).getD 0

/-- `by_concurso = {d.concurso: d for d in draws}`: later entries overwrite
earlier ones, so lookup takes the last matching draw. -/
def byConcurso (draws : List Draw) (conc : ℕ) : Option Draw :=
  draws.reverse.find? (fun d => d.concurso = conc)

/-- The mutable loop state of the per-campaign scan:
`(daily, best_hits, best_when, best_offset)`. -/
structure ScanAcc where
  daily : List DailyEntry
  best_hits : ℕ
  best_when : Option ℕ
  best_offset : Option ℕ
deriving Repr, DecidableEq

/-- One iteration of `for conc in range(start_idx, end_idx + 1)`
(lines 561-583): skip already-processed or missing concursos, else append a
daily entry with the per-game hits, updating the best tracker on strict
improvement (`if day_best > best_hits`). -/
def scanStep (draws : List Draw) (start : ℕ) (processed : List ℕ)
    (games : List (String × List ℕ)) (acc : ScanAcc) (conc : ℕ) : ScanAcc :=
  if conc ∈ processed then acc
  else
    match byConcurso draws conc with
    | none => acc
    | some d =>
        let hitsMap := games.map (fun kv => (kv.1, hitsOf kv.2 d.bolas))
        let dayBest := (hitsMap.map (fun kv => kv.2)).foldl max 0
        let entry : DailyEntry := ⟨conc, d.data, dayBest, hitsMap, conc - start⟩
        if acc.best_hits < dayBest then
          ⟨acc.daily ++ [entry], dayBest, some d.data, some (conc - start)⟩
        else
          ⟨acc.daily ++ [entry], acc.best_hits, acc.best_when, acc.best_offset⟩

/-- `range(start_idx, end_idx + 1)`. -/
def campaignRange (start endIdx : ℕ) : List ℕ := List.range' start (endIdx + 1 - start)

/-- `end_idx = min(max_concurso, start + teimosinha - 1)` (line 549). -/
def campaignEndIdx (draws : List Draw) (t : ℕ) (c : Campaign) : ℕ :=
  min (maxConcurso draws) (c.start_concurso + t - 1)

/-- The whole scan loop of one active campaign. -/
def campaignScan (draws : List Draw) (t : ℕ) (c : Campaign) : ScanAcc :=
  (campaignRange c.start_concurso (campaignEndIdx draws t c)).foldl
    (scanStep draws c.start_concurso (c.daily.map (fun e => e.concurso)) c.games)
    ⟨c.daily, c.best_hits, c.best_when, c.best_offset⟩

/-- `max((x.get("concurso", 0) for x in daily), default=None)` (line 595). -/
def dailyMaxConcurso (daily : List DailyEntry) : Option ℕ :=
  if daily = [] then none
  else some ((daily.map (fun e => e.concurso)).foldl max 0)

/-- The per-campaign body of `update_campaigns` (lines 534-602): skip
non-active campaigns, close invalid ones, else scan the window and close on
`best_hits >= min_hits_stop` or when the final window concurso was
processed. -/
def update_campaign (draws : List Draw) (teimosinha min_hits_stop : ℕ)
    (c : Campaign) : Campaign :=
  if c.status ≠ "active" then c
  else if c.games = [] ∨ c.start_concurso = 0 then
    { c with status := "closed", closed_reason := some "invalid_state" }
  else
    let acc := campaignScan draws teimosinha c
    let c' := { c with daily := acc.daily, best_hits := acc.best_hits,
                       best_when := acc.best_when, best_offset := acc.best_offset }
    if min_hits_stop ≤ acc.best_hits then
      { c' with status := "closed",
                closed_reason := some ("hit_stop>=" ++ toString min_hits_stop),
                closed_at_concurso := dailyMaxConcurso acc.daily }
    else if acc.daily.any (fun e => e.concurso = campaignEndIdx draws teimosinha c) then
      { c' with status := "closed",
                closed_reason := some ("teimosinha_end(" ++ toString teimosinha ++ ")"),
                closed_at_concurso := some (campaignEndIdx draws teimosinha c) }
    else c'

/-- `update_campaigns(draws, teimosinha, min_hits_stop)` (lines 516-606)
followed by `_save_campaign_state` (line 509), which stamps `updated_at`
with the current time `now`. -/
def update_campaigns (draws : List Draw) (teimosinha min_hits_stop now : ℕ)
    (state : CampaignState) : CampaignState :=
  { state with
      campaigns := state.campaigns.map (update_campaign draws teimosinha min_hits_stop),
      updated_at := some now }

/-- `_campaign_id` (line 513), with the creation timestamp as a number. -/
def _campaign_id (start created : ℕ) : String :=
  "c" ++ toString start ++ "_" ++ toString created

/-- `maybe_start_campaign` (lines 608-640): when the gate passed, append a
fresh active campaign for `start = last_concurso + 1` and save (stamping
`updated_at := now`); no existing campaign is consulted. -/
def maybe_start_campaign (state : CampaignState) (gate_pass : Bool)
    (last_concurso : ℕ) (games : List (String × List ℕ))
    (teimosinha min_hits_stop now : ℕ) : CampaignState × Option Campaign :=
  if !gate_pass then (state, none)
  else
    let campaign : Campaign := ⟨_campaign_id (last_concurso + 1) now, "active", now,
      last_concurso + 1, teimosinha, min_hits_stop, games, 0, none, none, [], none, none⟩
    ({ state with campaigns := state.campaigns ++ [campaign], updated_at := some now },
      some campaign)

/-! ## C1: campaign opening has no dedupe -/

/-- A 15-number game under the single label "AB". -/
def gamesAB : List (String × List ℕ) :=
  [("AB", [1, 2, 3, 4, 5, 6, 7, 8, 9, 10, 11, 12, 13, 14, 15])]

/-- An active campaign anchored at concurso 11 with window 3 and stop 14. -/
def c11 : Campaign :=
  ⟨"c11_0", "active", 0, 11, 3, 14, gamesAB, 0, none, none, [], none, none⟩

/-- A store already holding `c11`. -/
def state11 : CampaignState := ⟨1, none, [c11]⟩

/-- C1 counterexample: a store already holds a campaign with
`start_concurso = 11`; a passing gate run with `last_concurso = 10` appends a
second campaign with the same `start_concurso = 11` — the call is not a no-op
and the store ends with two campaigns sharing the same start index. -/
theorem maybe_start_no_dedupe_counterexample :
    ((maybe_start_campaign state11 true 10 gamesAB 3 14 5).1.campaigns.map
      (fun c => c.start_concurso)) = [11, 11] := by
  decide

/-- C1 (amended): `maybe_start_campaign` performs no dedupe.  When the gate
fails it returns the store untouched; when the gate passes it always appends
exactly one fresh active campaign with `start_concurso = last_concurso + 1`,
regardless of any existing campaign with the same start, and stamps
`updated_at`. -/
theorem maybe_start_campaign_spec (state : CampaignState) (gp : Bool) (last : ℕ)
    (games : List (String × List ℕ)) (t m now : ℕ) :
    (gp = false → maybe_start_campaign state gp last games t m now = (state, none)) ∧
      (gp = true →
        (maybe_start_campaign state gp last games t m now).1.campaigns =
          state.campaigns ++ [⟨_campaign_id (last + 1) now, "active", now, last + 1,
            t, m, games, 0, none, none, [], none, none⟩] ∧
        (maybe_start_campaign state gp last games t m now).2 =
          some ⟨_campaign_id (last + 1) now, "active", now, last + 1,
            t, m, games, 0, none, none, [], none, none⟩ ∧
        (maybe_start_campaign state gp last games t m now).1.updated_at = some now) := by
  constructor
  · intro h
    subst h
    rfl
  · intro h
    subst h
    exact ⟨rfl, rfl, rfl⟩

/-- Concrete instantiation of `maybe_start_campaign_spec` on `state11`. -/
theorem maybe_start_campaign_spec_witness :
    maybe_start_campaign state11 false 10 gamesAB 3 14 5 = (state11, none) ∧
      (maybe_start_campaign state11 true 10 gamesAB 3 14 5).1.campaigns =
        state11.campaigns ++ [⟨_campaign_id 11 5, "active", 5, 11, 3, 14, gamesAB,
          0, none, none, [], none, none⟩] :=
  ⟨(maybe_start_campaign_spec state11 false 10 gamesAB 3 14 5).1 rfl,
    ((maybe_start_campaign_spec state11 true 10 gamesAB 3 14 5).2 rfl).1⟩

/-! ## C2 and C7: counterexamples on concrete draws -/

/-- Concursos 11, 12, 13: 14 hits (reaches the stop threshold), then 15 hits
(a later, better day), then 10 hits. -/
def drawsC2 : List Draw :=
  [⟨11, 101, [1, 2, 3, 4, 5, 6, 7, 8, 9, 10, 11, 12, 13, 14, 16], []⟩,
    ⟨12, 102, [1, 2, 3, 4, 5, 6, 7, 8, 9, 10, 11, 12, 13, 14, 15], []⟩,
    ⟨13, 103, [1, 2, 3, 4, 5, 6, 7, 8, 9, 10, 16, 17, 18, 19, 20], []⟩]

/-- C2 counterexample: the campaign reaches `min_hits_stop = 14` already at
concurso 11, yet the run records checks for all three window concursos,
anchors the best tracker at concurso 12 (the best hit count, offset 1 — not
the first qualifying event) and closes at the last processed concurso 13. -/
theorem update_campaign_records_all_counterexample :
    ((update_campaign drawsC2 3 14 c11).daily.map (fun e => e.concurso)) =
        [11, 12, 13] ∧
      (update_campaign drawsC2 3 14 c11).best_hits = 15 ∧
      (update_campaign drawsC2 3 14 c11).best_offset = some 1 ∧
      (update_campaign drawsC2 3 14 c11).closed_at_concurso = some 13 ∧
      (update_campaign drawsC2 3 14 c11).status = "closed" := by
  refine ⟨by decide, by decide, by decide, by decide, by decide⟩

/-- Concursos 10 and 15 only: the window `[11, 13]` of `c11` falls in a data
gap while the stream extends past its end. -/
def drawsGap : List Draw := [⟨10, 100, [1, 2, 3], []⟩, ⟨15, 105, [1, 2, 3], []⟩]

/-- C7 counterexample: the maximum available concurso (15) lies strictly past
the window end (13) and no window event was ever observed, yet the campaign
stays `active` — there is no data-gap expiry path. -/
theorem update_campaign_gap_counterexample :
    maxConcurso drawsGap = 15 ∧
      campaignEndIdx drawsGap 3 c11 = 13 ∧
      (update_campaign drawsGap 3 14 c11).status = "active" ∧
      (update_campaign drawsGap 3 14 c11).daily = [] := by
  refine ⟨by decide, by decide, by decide, by decide⟩

/-! ## Scan-loop lemmas -/

theorem scanStep_skip {draws : List Draw} {start : ℕ} {processed : List ℕ}
    {games : List (String × List ℕ)} {acc : ScanAcc} {conc : ℕ}
    (h : conc ∈ processed ∨ byConcurso draws conc = none) :
    scanStep draws start processed games acc conc = acc := by
  unfold scanStep
  by_cases h1 : conc ∈ processed
  · rw [if_pos h1]
  · rw [if_neg h1]
    rcases h with h | h
    · exact absurd h h1
    · rw [h]

theorem scanStep_daily_cases (draws : List Draw) (start : ℕ) (processed : List ℕ)
    (games : List (String × List ℕ)) (acc : ScanAcc) (conc : ℕ) :
    scanStep draws start processed games acc conc = acc ∨
      ∃ e : DailyEntry, e.concurso = conc ∧
        (scanStep draws start processed games acc conc).daily = acc.daily ++ [e] := by
  unfold scanStep
  by_cases h1 : conc ∈ processed
  · rw [if_pos h1]
    exact Or.inl rfl
  · rw [if_neg h1]
    cases hbc : byConcurso draws conc with
    | none => exact Or.inl rfl
    | some d =>
      right
      dsimp only
      by_cases h2 : acc.best_hits <
          ((games.map (fun kv => (kv.1, hitsOf kv.2 d.bolas))).map
            (fun kv => kv.2)).foldl max 0
      · rw [if_pos h2]
        exact ⟨_, rfl, rfl⟩
      · rw [if_neg h2]
        exact ⟨_, rfl, rfl⟩

theorem scan_fold_daily_prefix (draws : List Draw) (start : ℕ) (processed : List ℕ)
    (games : List (String × List ℕ)) : ∀ (l : List ℕ) (acc : ScanAcc),
    ∃ delta, (l.foldl (scanStep draws start processed games) acc).daily =
      acc.daily ++ delta := by
  intro l
  induction l with
  | nil => intro acc; exact ⟨[], by simp⟩
  | cons c0 l ih =>
    intro acc
    obtain ⟨delta, hdelta⟩ := ih (scanStep draws start processed games acc c0)
    rw [List.foldl_cons]
    rcases scanStep_daily_cases draws start processed games acc c0 with heq | ⟨e, _, he⟩
    · refine ⟨delta, ?_⟩
      rw [hdelta, heq]
    · refine ⟨e :: delta, ?_⟩
      rw [hdelta, he, List.append_assoc]
      rfl

theorem scan_fold_stable (draws : List Draw) (start : ℕ) (processed : List ℕ)
    (games : List (String × List ℕ)) : ∀ (l : List ℕ) (acc : ScanAcc),
    (∀ conc ∈ l, conc ∈ processed ∨ byConcurso draws conc = none) →
    l.foldl (scanStep draws start processed games) acc = acc := by
  intro l
  induction l with
  | nil => intro acc _; rfl
  | cons c0 l ih =>
    intro acc h
    rw [List.foldl_cons, scanStep_skip (h c0 (List.mem_cons_self c0 l))]
    exact ih acc (fun conc hc => h conc (List.mem_cons_of_mem c0 hc))

theorem scan_fold_complete (draws : List Draw) (start : ℕ) (processed : List ℕ)
    (games : List (String × List ℕ)) : ∀ (l : List ℕ) (acc : ScanAcc),
    (∀ x ∈ processed, x ∈ acc.daily.map (fun e => e.concurso)) →
    ∀ conc ∈ l, (byConcurso draws conc).isSome = true →
    conc ∈ (l.foldl (scanStep draws start processed games) acc).daily.map
      (fun e => e.concurso) := by
  intro l
  induction l with
  | nil => intro acc _ conc hconc _; simp at hconc
  | cons c0 l ih =>
    intro acc hinv conc hconc hsome
    have hstep := scanStep_daily_cases draws start processed games acc c0
    have hmono : ∀ x, x ∈ acc.daily.map (fun e => e.concurso) →
        x ∈ (scanStep draws start processed games acc c0).daily.map
          (fun e => e.concurso) := by
      intro x hx
      rcases hstep with heq | ⟨e, _, he⟩
      · rw [heq]; exact hx
      · rw [he, List.map_append]
        exact List.mem_append_left _ hx
    have hpres : ∀ (acc' : ScanAcc) x, x ∈ acc'.daily.map (fun e => e.concurso) →
        x ∈ (l.foldl (scanStep draws start processed games) acc').daily.map
          (fun e => e.concurso) := by
      intro acc' x hx
      obtain ⟨delta, hdelta⟩ := scan_fold_daily_prefix draws start processed games l acc'
      rw [hdelta, List.map_append]
      exact List.mem_append_left _ hx
    rw [List.foldl_cons]
    rcases List.mem_cons.mp hconc with rfl | hconc'
    · by_cases hp : conc ∈ processed
      · exact hpres _ conc (hmono conc (hinv conc hp))
      · obtain ⟨d, hd⟩ := Option.isSome_iff_exists.mp hsome
        have hmem : conc ∈ (scanStep draws start processed games acc conc).daily.map
            (fun e => e.concurso) := by
          unfold scanStep
          rw [if_neg hp, hd]
          dsimp only
          by_cases h2 : acc.best_hits <
              ((games.map (fun kv => (kv.1, hitsOf kv.2 d.bolas))).map
                (fun kv => kv.2)).foldl max 0
          · rw [if_pos h2]
            simp
          · rw [if_neg h2]
            simp
        exact hpres _ conc hmem
    · exact ih (scanStep draws start processed games acc c0)
        (fun x hx => hmono x (hinv x hx)) conc hconc' hsome

/-! ## The amended campaign theorems -/

theorem update_campaign_active_eq (draws : List Draw) (t m : ℕ) (c : Campaign)
    (hact : c.status = "active") (hg : c.games ≠ []) (hs : c.start_concurso ≠ 0) :
    update_campaign draws t m c =
      (if m ≤ (campaignScan draws t c).best_hits then
        { c with daily := (campaignScan draws t c).daily,
                 best_hits := (campaignScan draws t c).best_hits,
                 best_when := (campaignScan draws t c).best_when,
                 best_offset := (campaignScan draws t c).best_offset,
                 status := "closed",
                 closed_reason := some ("hit_stop>=" ++ toString m),
                 closed_at_concurso := dailyMaxConcurso (campaignScan draws t c).daily }
      else if (campaignScan draws t c).daily.any
          (fun e => e.concurso = campaignEndIdx draws t c) then
        { c with daily := (campaignScan draws t c).daily,
                 best_hits := (campaignScan draws t c).best_hits,
                 best_when := (campaignScan draws t c).best_when,
                 best_offset := (campaignScan draws t c).best_offset,
                 status := "closed",
                 closed_reason := some ("teimosinha_end(" ++ toString t ++ ")"),
                 closed_at_concurso := some (campaignEndIdx draws t c) }
      else
        { c with daily := (campaignScan draws t c).daily,
                 best_hits := (campaignScan draws t c).best_hits,
                 best_when := (campaignScan draws t c).best_when,
                 best_offset := (campaignScan draws t c).best_offset }) := by
  unfold update_campaign
  rw [if_neg (by simp [hact]), if_neg (by simp [hg, hs])]

theorem update_campaign_active_daily (draws : List Draw) (t m : ℕ) (c : Campaign)
    (hact : c.status = "active") (hg : c.games ≠ []) (hs : c.start_concurso ≠ 0) :
    (update_campaign draws t m c).daily = (campaignScan draws t c).daily := by
  rw [update_campaign_active_eq draws t m c hact hg hs]
  by_cases h1 : m ≤ (campaignScan draws t c).best_hits
  · rw [if_pos h1]
  · rw [if_neg h1]
    by_cases h2 : (campaignScan draws t c).daily.any
        (fun e => e.concurso = campaignEndIdx draws t c)
    · rw [if_pos h2]
    · rw [if_neg h2]

/-- C2 (amended): for an active valid campaign, `update_campaigns` records a
check for every available event of the whole window in the same run —
regardless of when `min_hits_stop` is first reached — and when the resulting
best hit count reaches `min_hits_stop` it closes the campaign with the
hit-stop reason and `closed_at_concurso` equal to the greatest recorded
event index (not the first qualifying one). -/
theorem update_campaign_hit_stop_spec (draws : List Draw) (t m : ℕ) (c : Campaign)
    (hact : c.status = "active") (hg : c.games ≠ []) (hs : c.start_concurso ≠ 0) :
    (∀ conc ∈ campaignRange c.start_concurso (campaignEndIdx draws t c),
        (byConcurso draws conc).isSome = true →
        conc ∈ (update_campaign draws t m c).daily.map (fun e => e.concurso)) ∧
      (m ≤ (campaignScan draws t c).best_hits →
        (update_campaign draws t m c).status = "closed" ∧
        (update_campaign draws t m c).closed_reason =
          some ("hit_stop>=" ++ toString m) ∧
        (update_campaign draws t m c).closed_at_concurso =
          dailyMaxConcurso ((update_campaign draws t m c).daily)) := by
  constructor
  · intro conc hconc hsome
    rw [update_campaign_active_daily draws t m c hact hg hs]
    exact scan_fold_complete draws c.start_concurso
      (c.daily.map (fun e => e.concurso)) c.games
      (campaignRange c.start_concurso (campaignEndIdx draws t c))
      ⟨c.daily, c.best_hits, c.best_when, c.best_offset⟩
      (fun x hx => hx) conc hconc hsome
  · intro hm
    rw [update_campaign_active_daily draws t m c hact hg hs,
      update_campaign_active_eq draws t m c hact hg hs, if_pos hm]
    exact ⟨rfl, rfl, rfl⟩

/-- Concrete instantiation of `update_campaign_hit_stop_spec` at `drawsC2`. -/
theorem update_campaign_hit_stop_spec_witness :
    (∀ conc ∈ campaignRange c11.start_concurso (campaignEndIdx drawsC2 3 c11),
        (byConcurso drawsC2 conc).isSome = true →
        conc ∈ (update_campaign drawsC2 3 14 c11).daily.map (fun e => e.concurso)) ∧
      (14 ≤ (campaignScan drawsC2 3 c11).best_hits →
        (update_campaign drawsC2 3 14 c11).status = "closed" ∧
        (update_campaign drawsC2 3 14 c11).closed_reason =
          some ("hit_stop>=" ++ toString 14) ∧
        (update_campaign drawsC2 3 14 c11).closed_at_concurso =
          dailyMaxConcurso ((update_campaign drawsC2 3 14 c11).daily)) :=
  update_campaign_hit_stop_spec drawsC2 3 14 c11 (by decide) (by decide) (by decide)

/-- C7 (amended): an active valid campaign stays `active` exactly when the
scan leaves `best_hits` below `min_hits_stop` and no recorded check hits the
final window index `end = start + teimosinha − 1` (clamped by the available
maximum).  In particular, when the end-of-window event is missing from the
stream the campaign is not expired, even if events beyond the window exist —
the code has no data-gap expiry path. -/
theorem update_campaign_expiry_iff (draws : List Draw) (t m : ℕ) (c : Campaign)
    (hact : c.status = "active") (hg : c.games ≠ []) (hs : c.start_concurso ≠ 0) :
    (update_campaign draws t m c).status = "active" ↔
      (campaignScan draws t c).best_hits < m ∧
        ∀ e ∈ (campaignScan draws t c).daily,
          e.concurso ≠ campaignEndIdx draws t c := by
  rw [update_campaign_active_eq draws t m c hact hg hs]
  by_cases h1 : m ≤ (campaignScan draws t c).best_hits
  · rw [if_pos h1]
    constructor
    · intro hcon
      have hss : ("closed" : String) = "active" := hcon
      exact absurd hss (by decide)
    · rintro ⟨hlt, _⟩
      omega
  · rw [if_neg h1]
    by_cases h2 : (campaignScan draws t c).daily.any
        (fun e => e.concurso = campaignEndIdx draws t c)
    · rw [if_pos h2]
      constructor
      · intro hcon
        have hss : ("closed" : String) = "active" := hcon
        exact absurd hss (by decide)
      · rintro ⟨_, hall⟩
        obtain ⟨e, he, heq⟩ := List.any_eq_true.mp h2
        exact (hall e he (of_decide_eq_true heq)).elim
    · rw [if_neg h2]
      constructor
      · intro _
        refine ⟨by omega, ?_⟩
        intro e he heq
        refine h2 ?_
        rw [List.any_eq_true]
        exact ⟨e, he, decide_eq_true heq⟩
      · intro _
        exact hact

/-- Concrete instantiation of `update_campaign_expiry_iff` at `drawsGap`:
the gap campaign satisfies both right-hand conditions, hence stays active. -/
theorem update_campaign_expiry_iff_witness :
    (update_campaign drawsGap 3 14 c11).status = "active" ↔
      (campaignScan drawsGap 3 c11).best_hits < 14 ∧
        ∀ e ∈ (campaignScan drawsGap 3 c11).daily,
          e.concurso ≠ campaignEndIdx drawsGap 3 c11 :=
  update_campaign_expiry_iff drawsGap 3 14 c11 (by decide) (by decide) (by decide)

/-! ## C8: idempotence of `update_campaigns` -/

theorem update_campaign_not_active (draws : List Draw) (t m : ℕ) (c : Campaign)
    (h : ¬ (c.status = "active")) : update_campaign draws t m c = c := by
  unfold update_campaign
  rw [if_pos h]

/-- Re-scanning a campaign whose `daily`/best fields already incorporate a
scan over the same draws adds nothing: every available concurso of the window
is already in the processed set. -/
theorem campaignScan_after (draws : List Draw) (t : ℕ) (c : Campaign) :
    campaignScan draws t
      ({ c with daily := (campaignScan draws t c).daily,
                best_hits := (campaignScan draws t c).best_hits,
                best_when := (campaignScan draws t c).best_when,
                best_offset := (campaignScan draws t c).best_offset }) =
      ⟨(campaignScan draws t c).daily, (campaignScan draws t c).best_hits,
        (campaignScan draws t c).best_when, (campaignScan draws t c).best_offset⟩ := by
  set acc := campaignScan draws t c with hacc
  unfold campaignScan campaignEndIdx campaignRange
  dsimp only
  refine scan_fold_stable draws c.start_concurso _ c.games _ _ ?_
  intro conc hconc
  cases hbc : byConcurso draws conc with
  | none => exact Or.inr rfl
  | some d =>
    refine Or.inl ?_
    have hrange : conc ∈ campaignRange c.start_concurso (campaignEndIdx draws t c) :=
      hconc
    have hfold : (campaignRange c.start_concurso (campaignEndIdx draws t c)).foldl
        (scanStep draws c.start_concurso (c.daily.map (fun e => e.concurso)) c.games)
        ⟨c.daily, c.best_hits, c.best_when, c.best_offset⟩ = campaignScan draws t c :=
      rfl
    have hcomp := scan_fold_complete draws c.start_concurso
      (c.daily.map (fun e => e.concurso)) c.games
      (campaignRange c.start_concurso (campaignEndIdx draws t c))
      ⟨c.daily, c.best_hits, c.best_when, c.best_offset⟩
      (fun x hx => hx) conc hrange (by rw [hbc]; rfl)
    rw [hfold, ← hacc] at hcomp
    exact hcomp

theorem update_campaign_idem (draws : List Draw) (t m : ℕ) (c : Campaign) :
    update_campaign draws t m (update_campaign draws t m c) =
      update_campaign draws t m c := by
  by_cases hact : c.status = "active"
  · by_cases hinv : c.games = [] ∨ c.start_concurso = 0
    · have h1 : update_campaign draws t m c =
          { c with status := "closed", closed_reason := some "invalid_state" } := by
        unfold update_campaign
        rw [if_neg (by simp [hact]), if_pos hinv]
      rw [h1]
      refine update_campaign_not_active draws t m _ ?_
      intro hcon
      have hss : ("closed" : String) = "active" := hcon
      exact absurd hss (by decide)
    · have hg : c.games ≠ [] := fun h => hinv (Or.inl h)
      have hs : c.start_concurso ≠ 0 := fun h => hinv (Or.inr h)
      rw [update_campaign_active_eq draws t m c hact hg hs]
      by_cases h1 : m ≤ (campaignScan draws t c).best_hits
      · rw [if_pos h1]
        refine update_campaign_not_active draws t m _ ?_
        intro hcon
        have hss : ("closed" : String) = "active" := hcon
        exact absurd hss (by decide)
      · rw [if_neg h1]
        by_cases h2 : (campaignScan draws t c).daily.any
            (fun e => e.concurso = campaignEndIdx draws t c)
        · rw [if_pos h2]
          refine update_campaign_not_active draws t m _ ?_
          intro hcon
          have hss : ("closed" : String) = "active" := hcon
          exact absurd hss (by decide)
        · rw [if_neg h2]
          have hactR : ({ c with daily := (campaignScan draws t c).daily, best_hits := (campaignScan draws t c).best_hits, best_when := (campaignScan draws t c).best_when, best_offset := (campaignScan draws t c).best_offset } : Campaign).status = "active" := hact
          have hgR : ({ c with daily := (campaignScan draws t c).daily, best_hits := (campaignScan draws t c).best_hits, best_when := (campaignScan draws t c).best_when, best_offset := (campaignScan draws t c).best_offset } : Campaign).games ≠ [] := hg
          have hsR : ({ c with daily := (campaignScan draws t c).daily, best_hits := (campaignScan draws t c).best_hits, best_when := (campaignScan draws t c).best_when, best_offset := (campaignScan draws t c).best_offset } : Campaign).start_concurso ≠ 0 := hs
          rw [update_campaign_active_eq draws t m _ hactR hgR hsR,
            campaignScan_after draws t c]
          dsimp only
          rw [if_neg h1]
          have h2' : ¬ ((campaignScan draws t c).daily.any (fun e => e.concurso = campaignEndIdx draws t ({ c with daily := (campaignScan draws t c).daily, best_hits := (campaignScan draws t c).best_hits, best_when := (campaignScan draws t c).best_when, best_offset := (campaignScan draws t c).best_offset } : Campaign)) : Bool) := h2
          rw [if_neg h2']
  · have h := update_campaign_not_active draws t m c hact
    rw [h]
    exact update_campaign_not_active draws t m c hact

/-- C8 (amended): re-running `update_campaigns` against identical event data
changes no campaign — the per-campaign update is idempotent (no new `daily`
entries, no best/status changes) and a campaign whose status is not `active`
is never mutated.  Only the store's `updated_at` stamp is refreshed, so the
stored bytes differ between runs with different timestamps. -/
theorem update_campaigns_idempotent (draws : List Draw) (t m now1 now2 : ℕ)
    (s : CampaignState) :
    (update_campaigns draws t m now2 (update_campaigns draws t m now1 s)).campaigns =
        (update_campaigns draws t m now1 s).campaigns ∧
      ∀ c : Campaign, ¬ (c.status = "active") → update_campaign draws t m c = c := by
  constructor
  · simp only [update_campaigns]
    rw [List.map_map]
    refine List.map_congr_left ?_
    intro c _
    exact update_campaign_idem draws t m c
  · intro c h
    exact update_campaign_not_active draws t m c h

/-- A campaign already closed by a hit-stop, and a store holding it. -/
def cClosed : Campaign :=
  ⟨"c9_0", "closed", 0, 9, 3, 14, gamesAB, 15, some 100, some 0, [],
    some "hit_stop>=14", some 9⟩

def stateClosed : CampaignState := ⟨1, some 1, [cClosed]⟩

/-- C8 counterexample: re-running `update_campaigns` over a store holding only
a closed (won) campaign leaves every campaign byte-identical, but the store
itself is not byte-identical across runs — `_save_campaign_state` rewrites
`updated_at` with the current timestamp on every run. -/
theorem update_campaigns_not_byte_identical :
    (update_campaigns drawsGap 3 14 1 stateClosed).campaigns = [cClosed] ∧
      update_campaigns drawsGap 3 14 2 (update_campaigns drawsGap 3 14 1 stateClosed) ≠
        update_campaigns drawsGap 3 14 1 stateClosed := by
  refine ⟨by decide, by decide⟩

/-- Concrete instantiation of `update_campaigns_idempotent`. -/
theorem update_campaigns_idempotent_witness :
    (update_campaigns drawsC2 3 14 2 (update_campaigns drawsC2 3 14 1 state11)).campaigns =
        (update_campaigns drawsC2 3 14 1 state11).campaigns ∧
      update_campaign drawsC2 3 14 cClosed = cClosed :=
  ⟨(update_campaigns_idempotent drawsC2 3 14 1 2 state11).1,
    (update_campaigns_idempotent drawsC2 3 14 1 2 state11).2 cClosed (by decide)⟩

end Abcd
